import Mathlib

/-!
Verification of the configuration-resolution core of the
`timeax/digital-service-engine` repository against its specification.

The TypeScript sources are shallowly embedded:

* JS objects used as string-keyed maps become association lists
  (`List (String × _)`) with first-match lookup (JS objects cannot hold
  a key twice); `Map` construction from a list of pairs is last-wins and
  is embedded by a fold that keeps the latest match.
* A JS `Set<string>` becomes a `List String` holding the insertion order;
  `add` is append-if-absent, membership is list membership.
* `undefined`/optional properties become `Option`; numeric `service_id`
  values become `Int`; service rates become `ℚ` (they only meet `≤` and
  percentage arithmetic, which is exact here).
* Unbounded `while` walks guarded by visited sets become fuel recursion,
  with fuel chosen exactly as large as the guard allows the walk to run
  (`tags.length + 1`); the simulation `while` loop of `validateVisibility`
  becomes well-founded recursion on the lexicographic measure
  (remaining state budget, stack length), which is the reason the
  original loop terminates.

Ids are opaque strings, as in the source.  Field ids that the source
leaves `undefined` are encoded as `""` (the source's `str` helper never
produces `""`, so the encoding is injective).
-/

namespace Dse

/-! ## Generic JS-style helpers -/

/-- First-match lookup in an association list (JS plain-object lookup). -/
def alookup (m : List (String × α)) (k : String) : Option α :=
  (m.find? (fun e => e.1 = k)).map (fun e => e.2)

/-- Last-match lookup: `new Map(list)` keeps the last entry for a key. -/
def lookupLastTag (tags : List α) (idOf : α → String) (k : String) : Option α :=
  tags.foldl (fun acc t => if idOf t = k then some t else acc) none

/-- JS `Map.set`: overwrite in place if the key exists, else append. -/
def mapSet (m : List (String × α)) (k : String) (v : α) : List (String × α) :=
  if m.any (fun e => e.1 = k) then
    m.map (fun e => if e.1 = k then (k, v) else e)
  else m ++ [(k, v)]

/-- JS `Set.add`: append if absent, preserving insertion order. -/
def setAdd (s : List String) (k : String) : List String :=
  if k ∈ s then s else s ++ [k]

/-- Code-unit comparison of strings (JS `Array.sort` default order). -/
def charListLe : List Char → List Char → Bool
  | [], _ => true
  | _ :: _, [] => false
  | a :: as, b :: bs =>
    if a.toNat < b.toNat then true
    else if b.toNat < a.toNat then false
    else charListLe as bs

def strLe (a b : String) : Bool :=
  charListLe a.data b.data

/-- Insertion sort on strings (JS `Array.sort` default lexicographic order). -/
def insertSorted (s : String) : List String → List String
  | [] => [s]
  | x :: xs => if strLe s x then s :: x :: xs else x :: insertSorted s xs

def sortStrings (l : List String) : List String :=
  l.foldr insertSorted []

/-- Whitespace test for the JS `trim` coercions. -/
def isWsChar (c : Char) : Bool :=
  c = ' ' || c = '\t' || c = '\n' || c = '\r'

/-- JS `String.prototype.trim`. -/
def jsTrim (s : String) : String :=
  String.mk (((s.data.dropWhile isWsChar).reverse.dropWhile isWsChar).reverse)

/-- Split at the first occurrence of `"::"` in a character list. -/
def findSepChars : List Char → Option (List Char × List Char)
  | [] => none
  | ':' :: ':' :: rest => some ([], rest)
  | c :: rest => (findSepChars rest).map (fun pr => (c :: pr.1, pr.2))

/-- Split a trigger key at the first occurrence of `"::"`
(JS `indexOf`/`slice`); `none` when the separator does not occur. -/
def splitTrigger (t : String) : Option (String × String) :=
  (findSepChars t.data).map (fun pr => (String.mk pr.1, String.mk pr.2))

/-! ## Data model (src/schema/index.ts) -/

inductive PricingRole
  | base
  | utility
deriving DecidableEq, Repr

inductive Flag
  | refill
  | cancel
  | dripfeed
deriving DecidableEq, Repr

/-- A partial record over the three constraint flags
(`Partial Record FlagKey α` in the source). -/
structure FlagMap (α : Type) where
  refill : Option α := none
  cancel : Option α := none
  dripfeed : Option α := none
deriving DecidableEq, Repr

def FlagMap.get (m : FlagMap α) : Flag → Option α
  | .refill => m.refill
  | .cancel => m.cancel
  | .dripfeed => m.dripfeed

/-- Build a flag map from a per-flag function. -/
def FlagMap.build (f : Flag → Option α) : FlagMap α :=
  ⟨f .refill, f .cancel, f .dripfeed⟩

def FlagMap.isEmpty (m : FlagMap α) : Bool :=
  m.refill.isNone && m.cancel.isNone && m.dripfeed.isNone

theorem FlagMap.get_build (f : Flag → Option α) (k : Flag) :
    (FlagMap.build f).get k = f k := by
  cases k <;> rfl

/-- Override record `from`/`to`/`origin` stored per flag. -/
structure OverrideRec where
  fromVal : Bool
  toVal : Bool
  origin : String
deriving DecidableEq, Repr

structure OptMeta where
  quantity : Bool := false
  multi : Option Bool := none
  rest : List (String × String) := []
deriving DecidableEq, Repr

/-- Primitive JS value for `FieldOption.value` (`string | number`). -/
inductive JPrim
  | s (v : String)
  | n (v : Int)
deriving DecidableEq, Repr

structure FieldOption where
  id : String := ""
  label : String := ""
  value : Option JPrim := none
  service_id : Option Int := none
  pricing_role : Option PricingRole := none
  meta : Option OptMeta := none
deriving DecidableEq, Repr

/-- Field binding: absent, a single tag id, or a list of tag ids. -/
inductive BindId
  | noneB
  | one (s : String)
  | many (l : List String)
deriving DecidableEq, Repr

inductive Axis
  | x
  | y
deriving DecidableEq, Repr

structure Field where
  id : String := ""
  type : String := "text"
  bind_id : BindId := .noneB
  name : Option String := none
  /-- Untyped `button` property read as `(f as any).button === true`;
  `coerceField` never emits it. -/
  button : Bool := false
  options : List FieldOption := []
  component : Option String := none
  pricing_role : Option PricingRole := none
  label : String := ""
  placeholder : String := ""
  helperText : String := ""
  helperTextPos : String := "bottom"
  labelClassName : String := ""
  required : Bool := false
  axis : Axis := .y
  labelAxis : Axis := .x
  extra : Option String := none
  meta : Option OptMeta := none
deriving DecidableEq, Repr

structure Tag where
  id : String := ""
  label : String := ""
  bind_id : Option String := none
  service_id : Option Int := none
  includes : List String := []
  excludes : List String := []
  constraints : Option (FlagMap Bool) := none
  constraints_origin : Option (FlagMap String) := none
  constraints_overrides : Option (FlagMap OverrideRec) := none
  meta : List (String × String) := []
deriving DecidableEq, Repr

/-- Provider service ids are numeric (`service_id?: number`); string refs
hold numerals at runtime, so we embed `ServiceIdRef` as `Nat`.  JS object
keys are strings, so the `global` fallback map is keyed by the string
form of the primary id, exactly as `coerceFallbacks` stores it
(`String(k)`). -/
abbrev ServiceId := Nat

structure ServiceFallback where
  nodes : List (String × List ServiceId) := []
  global : List (String × List ServiceId) := []
deriving DecidableEq, Repr

structure ServiceProps where
  order_for_tags : Option (List (String × List String)) := none
  filters : List Tag := []
  fields : List Field := []
  includes_for_options : Option (List (String × List String)) := none
  excludes_for_options : Option (List (String × List String)) := none
  /-- Read by the visibility engine as an untyped property; `normalise`
  never emits it. -/
  includes_for_buttons : Option (List (String × List String)) := none
  excludes_for_buttons : Option (List (String × List String)) := none
  schema_version : Option String := none
  fallbacks : Option ServiceFallback := none
deriving DecidableEq, Repr

/-! ## Node registry (src/core/node-map.ts) -/

inductive NodeRef
  | tag (t : Tag)
  | field (f : Field)
  | option (o : FieldOption) (fieldId : String)
deriving DecidableEq, Repr

abbrev NodeMap := List (String × NodeRef)

/-- Registration step `if (!map.has(id)) map.set(id, ...)`: first wins. -/
def addIfAbsent (m : NodeMap) (k : String) (v : NodeRef) : NodeMap :=
  if (alookup m k).isSome then m else m ++ [(k, v)]

/-- Source `buildNodeMap`: tags, then each field followed by its options. -/
def buildNodeMap (p : ServiceProps) : NodeMap :=
  let m0 := p.filters.foldl (fun m t => addIfAbsent m t.id (.tag t)) []
  p.fields.foldl
    (fun m f =>
      let m1 := addIfAbsent m f.id (.field f)
      f.options.foldl (fun m2 o => addIfAbsent m2 o.id (.option o f.id)) m1)
    m0

inductive TriggerRef
  | composite (fieldId optionId : String)
  | tag (id : String)
  | field (id : String)
  | option (id : String) (fieldId : String)
deriving DecidableEq, Repr

/-- Source `resolveTrigger`: composite `fieldId::optionId` keys first, then a
direct node-map lookup. -/
def resolveTrigger (trigger : String) (nm : NodeMap) : Option TriggerRef :=
  match splitTrigger trigger with
  | some (fid, oid) => some (.composite fid oid)
  | none =>
    match alookup nm trigger with
    | none => none
    | some (.option _ fieldId) => some (.option trigger fieldId)
    | some (.tag _) => some (.tag trigger)
    | some (.field _) => some (.field trigger)

/-! ## Visibility engine (src/core/visibility.ts) -/

/-- Lookup through `new Map(tags.map(t => [t.id, t]))`: last entry wins. -/
def tagById (tags : List Tag) (k : String) : Option Tag :=
  lookupLastTag tags Tag.id k

/-- Lookup through `new Map(fields.map(f => [f.id, f]))`: last entry wins. -/
def fieldByIdLast (fields : List Field) (k : String) : Option Field :=
  fields.foldl (fun acc f => if f.id = k then some f else acc) none

/-- Parent step of the lineage walk:
`cur = parentId ? tagById.get(parentId) : undefined` (an empty-string
`bind_id` is falsy in JS). -/
def parentOfTag (tags : List Tag) (cur : Tag) : Option Tag :=
  match cur.bind_id with
  | some pid => if pid = "" then none else tagById tags pid
  | none => none

/-- The `while` walk building `lineageDepth` (self = 0, parent = 1, ...),
guarded by a visited set; fuel `tags.length + 1` is enough because the
guard only ever holds tag ids. -/
def lineageLoop (tags : List Tag) :
    Nat → Option Tag → List String → Nat → List (String × Nat) → List (String × Nat)
  | 0, _, _, _, acc => acc
  | _ + 1, none, _, _, acc => acc
  | fuel + 1, some cur, guard, d, acc =>
    if cur.id ∈ guard then acc
    else
      lineageLoop tags fuel (parentOfTag tags cur)
        (guard ++ [cur.id]) (d + 1) (acc ++ [(cur.id, d)])

def lineageDepth (p : ServiceProps) (tagId : String) : List (String × Nat) :=
  lineageLoop p.filters (p.filters.length + 1) (tagById p.filters tagId) [] 0 []

def isTagInLineage (lin : List (String × Nat)) (id : String) : Bool :=
  (alookup lin id).isSome

/-- Source `ownerDepthForField`: the minimum lineage depth over the field's binds
(`!b` falsiness: an empty-string bind is treated as absent). -/
def ownerDepthForField (lin : List (String × Nat)) (f : Field) : Option Nat :=
  match f.bind_id with
  | .noneB => none
  | .one b => if b = "" then none else alookup lin b
  | .many l =>
    l.foldl
      (fun best id =>
        match alookup lin id with
        | none => best
        | some d =>
          match best with
          | none => some d
          | some b => if d < b then some d else some b)
      none

/-- Source `ownerDepthForTriggerKey`. -/
def ownerDepthForTriggerKey (fields : List Field) (lin : List (String × Nat))
    (nm : NodeMap) (triggerKey : String) : Option Nat :=
  match resolveTrigger triggerKey nm with
  | none => none
  | some (.composite fid _) =>
    match fieldByIdLast fields fid with
    | none => none
    | some f => ownerDepthForField lin f
  | some (.field id) =>
    match fieldByIdLast fields id with
    | none => none
    | some f => if f.button = true then ownerDepthForField lin f else none
  | some (.option _ fieldId) =>
    match fieldByIdLast fields fieldId with
    | none => none
    | some f => ownerDepthForField lin f
  | some (.tag _) => none

/-- Source `isBoundToLineage` (with the same `!b` falsiness guard). -/
def isBoundToLineage (lin : List (String × Nat)) (f : Field) : Bool :=
  match f.bind_id with
  | .noneB => false
  | .one b => if b = "" then false else isTagInLineage lin b
  | .many l => l.any (fun id => isTagInLineage lin id)

inductive DKind
  | inc
  | exc
deriving DecidableEq, Repr

structure BDec where
  depth : Nat
  kind : DKind
deriving DecidableEq, Repr

/-- Source `applyDecision`: closest depth wins; at equal depth an exclude
replaces an include (and an exclude is never replaced by an include).
Returns the value stored in the `decide` map for the field. -/
def applyDecision (prev : Option BDec) (next : BDec) : BDec :=
  match prev with
  | none => next
  | some p =>
    if next.depth < p.depth then next
    else if p.depth < next.depth then p
    else if p.kind = .inc ∧ next.kind = .exc then next
    else p

/-- The `decide` map plus the `revealedOrder` list threaded by the
trigger loop. -/
structure TrigAcc where
  decide : List (String × BDec) := []
  revealed : List String := []
deriving Repr

def applyDecisionMap (m : List (String × BDec)) (fieldId : String) (next : BDec) :
    List (String × BDec) :=
  mapSet m fieldId (applyDecision (alookup m fieldId) next)

/-- Include-list entry: record the decision and the revealed order
(`revealedSeen` holds exactly the members of `revealedOrder`, so the
push-if-unseen is `setAdd`). -/
def incStep (d : Nat) (a : TrigAcc) (id : String) : TrigAcc :=
  { decide := applyDecisionMap a.decide id ⟨d, .inc⟩
    revealed := setAdd a.revealed id }

/-- Exclude-list entry: record the decision only. -/
def excStep (d : Nat) (a : TrigAcc) (id : String) : TrigAcc :=
  { a with decide := applyDecisionMap a.decide id ⟨d, .exc⟩ }

/-- Body of `for (const triggerKey of relevantTriggersInOrder)`. -/
def applyTrigger (incM excM : List (String × List String))
    (ownerDepth : String → Option Nat) (acc : TrigAcc) (t : String) : TrigAcc :=
  match ownerDepth t with
  | none => acc
  | some d =>
    ((alookup excM t).getD []).foldl (excStep d)
      (((alookup incM t).getD []).foldl (incStep d) acc)

/-- Body of the base-candidate loop
(`if (isBoundToLineage(f)) visible.add(f.id); if (tagInclude.has(f.id)) ...`). -/
def visStep (lin : List (String × Nat)) (tagInclude : List String)
    (vis : List String) (f : Field) : List String :=
  let vis1 := if isBoundToLineage lin f then setAdd vis f.id else vis
  if f.id ∈ tagInclude then setAdd vis1 f.id else vis1

/-- Body of `for (const [fid, d] of decide)`: include adds, exclude removes. -/
def applyDecideStep (vis : List String) (e : String × BDec) : List String :=
  match e.2.kind with
  | .inc => setAdd vis e.1
  | .exc => vis.filter (fun id => ¬ (id = e.1))

/-- Trigger-depth resolver used for the selection loop (shared by the
`relevantTriggersInOrder` filter and the decision loop). -/
def ownerDepthOf (props : ServiceProps) (tagId : String) : String → Option Nat :=
  ownerDepthForTriggerKey props.fields (lineageDepth props tagId) (buildNodeMap props)

/-- Selection keys resolved to relevant triggers plus the decision loop
(`for (const triggerKey of relevantTriggersInOrder) ...`), yielding the
`decide` map and the `revealedOrder` list. -/
def trigAccOf (props : ServiceProps) (tagId : String) (selectedKeys : List String) :
    TrigAcc :=
  let ownerDepth := ownerDepthOf props tagId
  let relevantTriggersInOrder :=
    selectedKeys.filter (fun key => (ownerDepth key).isSome)
  relevantTriggersInOrder.foldl
    (applyTrigger (props.includes_for_buttons.getD [])
      (props.excludes_for_buttons.getD []) ownerDepth)
    ⟨[], []⟩

/-- Base candidates (bound fields plus current tag includes), current tag
excludes removed, then the button decisions applied. -/
def visibleSetOf (props : ServiceProps) (tagId : String) (tag : Tag)
    (selectedKeys : List String) : List String :=
  let lin := lineageDepth props tagId
  let visible0 := props.fields.foldl (visStep lin tag.includes) []
  let visible1 := visible0.filter (fun id => ¬ (id ∈ tag.excludes))
  (trigAccOf props tagId selectedKeys).decide.foldl applyDecideStep visible1

/-- Source `visibleFieldIdsUnder(props, tagId, opts)`. -/
def visibleFieldIdsUnder (props : ServiceProps) (tagId : String)
    (selectedKeys : List String) : List String :=
  let tags := props.filters
  let fields := props.fields
  match tagById tags tagId with
  | none => []
  | some tag =>
    let trig := trigAccOf props tagId selectedKeys
    let visible2 := visibleSetOf props tagId tag selectedKeys
    let base := (fields.filter (fun f => f.id ∈ visible2)).map Field.id
    match alookup (props.order_for_tags.getD []) tagId with
    | some order =>
      if order.length ≠ 0 then
        let ordered := order.filter (fun fid => fid ∈ visible2)
        let rest := base.filter (fun fid => ¬ (fid ∈ ordered))
        ordered ++ rest
      else
        let promoted := trig.revealed.filter (fun fid => fid ∈ visible2)
        let rest := base.filter (fun fid => ¬ (fid ∈ promoted))
        promoted ++ rest
    | none =>
      let promoted := trig.revealed.filter (fun fid => fid ∈ visible2)
      let rest := base.filter (fun fid => ¬ (fid ∈ promoted))
      promoted ++ rest

/-- Source `visibleFieldsUnder`: ids resolved to fields, unknown ids dropped. -/
def visibleFieldsUnder (props : ServiceProps) (tagId : String)
    (selectedKeys : List String) : List Field :=
  (visibleFieldIdsUnder props tagId selectedKeys).filterMap
    (fun id => fieldByIdLast props.fields id)

/-! ## Basic lemmas about the JS-style helpers -/

theorem alookup_nil (k : String) : alookup ([] : List (String × α)) k = none := rfl

theorem alookup_cons (e : String × α) (m : List (String × α)) (k : String) :
    alookup (e :: m) k = if e.1 = k then some e.2 else alookup m k := by
  by_cases h : e.1 = k <;> simp [alookup, List.find?_cons, h]

theorem alookup_append (m1 m2 : List (String × α)) (k : String) :
    alookup (m1 ++ m2) k =
      match alookup m1 k with
      | some v => some v
      | none => alookup m2 k := by
  induction m1 with
  | nil => simp [alookup_nil]
  | cons e m ih =>
    rw [List.cons_append, alookup_cons, alookup_cons]
    by_cases h : e.1 = k <;> simp [h, ih]

theorem alookup_isSome_iff (m : List (String × α)) (k : String) :
    (alookup m k).isSome = true ↔ k ∈ m.map Prod.fst := by
  induction m with
  | nil => simp [alookup_nil]
  | cons e m ih =>
    rw [alookup_cons]
    by_cases h : e.1 = k
    · simp [h]
    · have h2 : ¬ k = e.1 := fun hk => h hk.symm
      simp [h, h2, ih]

theorem alookup_eq_none_iff (m : List (String × α)) (k : String) :
    alookup m k = none ↔ ¬ k ∈ m.map Prod.fst := by
  rw [← alookup_isSome_iff]
  cases alookup m k <;> simp

theorem mem_setAdd (s : List String) (k x : String) :
    x ∈ setAdd s k ↔ x ∈ s ∨ x = k := by
  unfold setAdd
  by_cases h : k ∈ s
  · simp only [if_pos h]
    constructor
    · exact Or.inl
    · rintro (hx | rfl)
      · exact hx
      · exact h
  · simp [if_neg h]

theorem lookupLast_foldl_some (idOf : α → String) (k : String) :
    ∀ (l : List α) (acc : Option α) (t : α),
      l.foldl (fun acc t => if idOf t = k then some t else acc) acc = some t →
      (t ∈ l ∧ idOf t = k) ∨ acc = some t := by
  intro l
  induction l with
  | nil => intro acc t h; right; exact h
  | cons a l ih =>
    intro acc t h
    rw [List.foldl_cons] at h
    rcases ih _ t h with ⟨hm, hid⟩ | hacc
    · exact Or.inl ⟨List.mem_cons_of_mem a hm, hid⟩
    · by_cases ha : idOf a = k
      · simp only [if_pos ha] at hacc
        cases hacc
        exact Or.inl ⟨List.mem_cons_self a l, ha⟩
      · simp only [if_neg ha] at hacc
        exact Or.inr hacc

theorem lookupLastTag_mem (tags : List α) (idOf : α → String) (k : String) (t : α)
    (h : lookupLastTag tags idOf k = some t) : t ∈ tags ∧ idOf t = k := by
  rcases lookupLast_foldl_some idOf k tags none t h with hy | hn
  · exact hy
  · cases hn

theorem lookupLast_foldl_mem_none (idOf : α → String) (k : String) :
    ∀ (l : List α) (acc : Option α),
      l.foldl (fun acc t => if idOf t = k then some t else acc) acc = none →
      ∀ t ∈ l, ¬ idOf t = k := by
  intro l
  induction l with
  | nil => intro acc _ t ht; cases ht
  | cons a l ih =>
    intro acc h t ht
    rw [List.foldl_cons] at h
    rcases List.mem_cons.1 ht with rfl | hm
    · intro ha
      -- once the accumulator is `some`, the fold can never return `none`
      have : ∀ (l2 : List α) (x : α),
          l2.foldl (fun acc t => if idOf t = k then some t else acc) (some x) ≠ none := by
        intro l2
        induction l2 with
        | nil => intro x hx; cases hx
        | cons b l2 ih2 =>
          intro x hx
          rw [List.foldl_cons] at hx
          by_cases hb : idOf b = k
          · simp only [if_pos hb] at hx; exact ih2 _ hx
          · simp only [if_neg hb] at hx; exact ih2 _ hx
      simp only [if_pos ha] at h
      exact this l t h
    · exact ih _ h t hm

/-! ## Lineage walk: the collected ids are exactly self plus the
ancestors reachable through `bind_id` -/

/-- Iterated parent step: `tagChain tags start n` is the `n`-th ancestor
of the walk's start (`0` = the start itself). -/
def tagChain (tags : List Tag) (start : Option Tag) : Nat → Option Tag
  | 0 => start
  | n + 1 => (tagChain tags start n).bind (parentOfTag tags)

/-- A tag is canonical when it is what the tag map returns for its id. -/
def CanonTag (tags : List Tag) (c : Tag) : Prop :=
  tagById tags c.id = some c

theorem tagChain_none (tags : List Tag) : ∀ n, tagChain tags none n = none := by
  intro n
  induction n with
  | zero => rfl
  | succ n ih => simp [tagChain, ih]

theorem tagChain_shift (tags : List Tag) (c : Tag) :
    ∀ n, tagChain tags (some c) (n + 1) = tagChain tags (parentOfTag tags c) n := by
  intro n
  induction n with
  | zero => simp [tagChain]
  | succ n ih =>
    show (tagChain tags (some c) (n + 1)).bind (parentOfTag tags) = _
    rw [ih]
    rfl

theorem canonTag_of_tagById {tags : List Tag} {tid : String} {c : Tag}
    (h : tagById tags tid = some c) : CanonTag tags c := by
  have hm := lookupLastTag_mem tags Tag.id tid c h
  unfold CanonTag
  rw [hm.2]
  exact h

theorem canonTag_parent {tags : List Tag} {c c2 : Tag}
    (h : parentOfTag tags c = some c2) : CanonTag tags c2 := by
  rcases hb : c.bind_id with _ | pid
  · simp [parentOfTag, hb] at h
  · simp only [parentOfTag, hb] at h
    by_cases hp : pid = ""
    · simp [hp] at h
    · simp only [if_neg hp] at h
      exact canonTag_of_tagById h

theorem tagChain_canon {tags : List Tag} {c t : Tag} {n : Nat}
    (hc : CanonTag tags c) (h : tagChain tags (some c) n = some t) :
    CanonTag tags t := by
  induction n generalizing t with
  | zero => cases h; exact hc
  | succ n ih =>
    unfold tagChain at h
    rcases hu : tagChain tags (some c) n with _ | u
    · rw [hu] at h; cases h
    · rw [hu] at h
      exact canonTag_parent h

theorem canonTag_mem {tags : List Tag} {c : Tag} (h : CanonTag tags c) :
    c ∈ tags :=
  (lookupLastTag_mem tags Tag.id c.id c h).1

/-- Monotonicity: the lineage loop only appends to its accumulator. -/
theorem lineageLoop_mono (tags : List Tag) :
    ∀ (fuel : Nat) (cur : Option Tag) (guard : List String) (d : Nat)
      (acc : List (String × Nat)),
      ∃ ext, lineageLoop tags fuel cur guard d acc = acc ++ ext := by
  intro fuel
  induction fuel with
  | zero => intro cur guard d acc; exact ⟨[], by simp [lineageLoop]⟩
  | succ fuel ih =>
    intro cur guard d acc
    match cur with
    | none => exact ⟨[], by simp [lineageLoop]⟩
    | some c =>
      by_cases hg : c.id ∈ guard
      · exact ⟨[], by simp [lineageLoop, hg]⟩
      · rcases ih (parentOfTag tags c) (guard ++ [c.id]) (d + 1) (acc ++ [(c.id, d)])
          with ⟨ext, hext⟩
        refine ⟨(c.id, d) :: ext, ?_⟩
        simp only [lineageLoop, if_neg hg]
        rw [hext]
        simp

/-- Soundness: every id the walk collects lies on the parent chain. -/
theorem lineageLoop_sound (tags : List Tag) :
    ∀ (fuel : Nat) (cur : Option Tag) (guard : List String) (d : Nat)
      (acc : List (String × Nat)) (x : String),
      x ∈ (lineageLoop tags fuel cur guard d acc).map Prod.fst →
      x ∈ acc.map Prod.fst ∨ ∃ n t, tagChain tags cur n = some t ∧ t.id = x := by
  intro fuel
  induction fuel with
  | zero => intro cur guard d acc x h; exact Or.inl (by simpa [lineageLoop] using h)
  | succ fuel ih =>
    intro cur guard d acc x h
    match cur with
    | none => exact Or.inl (by simpa [lineageLoop] using h)
    | some c =>
      by_cases hg : c.id ∈ guard
      · exact Or.inl (by simpa [lineageLoop, hg] using h)
      · simp only [lineageLoop, if_neg hg] at h
        rcases ih _ _ _ _ _ h with hacc | ⟨n, t, hn, hx⟩
        · simp only [List.map_append, List.mem_append] at hacc
          rcases hacc with hin | hone
          · exact Or.inl hin
          · right
            refine ⟨0, c, rfl, ?_⟩
            have hx : x = c.id := by simpa using hone
            exact hx.symm
        · right
          exact ⟨n + 1, t, by rw [tagChain_shift]; exact hn, hx⟩

/-- Completeness: with enough fuel, the walk collects the id of every
tag on the parent chain. -/
theorem lineageLoop_complete (tags : List Tag) :
    ∀ (fuel : Nat) (cur : Option Tag) (guard : List String) (d : Nat)
      (acc : List (String × Nat)),
      (∀ c, cur = some c → CanonTag tags c) →
      (∀ g ∈ guard, ∃ cg, tagById tags g = some cg ∧
        (parentOfTag tags cg = none ∨
          ∃ c2, parentOfTag tags cg = some c2 ∧ (c2.id ∈ guard ∨ cur = some c2))) →
      guard.Nodup →
      (∀ g ∈ guard, g ∈ tags.map Tag.id) →
      acc.map Prod.fst = guard →
      (tags.map Tag.id).dedup.length + 1 ≤ fuel + guard.length →
      ∀ n t, tagChain tags cur n = some t →
        t.id ∈ (lineageLoop tags fuel cur guard d acc).map Prod.fst := by
  intro fuel
  induction fuel with
  | zero =>
    intro cur guard d acc _ _ hnd hsub _ hfuel n t _
    exfalso
    have hsubd : guard ⊆ (tags.map Tag.id).dedup := by
      intro g hg
      exact List.mem_dedup.2 (hsub g hg)
    have := List.Subperm.length_le (List.subperm_of_subset hnd hsubd)
    omega
  | succ fuel ih =>
    intro cur guard d acc hcanon hclose hnd hsub hacc hfuel n t hchain
    match cur with
    | none => rw [tagChain_none] at hchain; cases hchain
    | some c =>
      have hcc : CanonTag tags c := hcanon c rfl
      by_cases hg : c.id ∈ guard
      · -- the walk stops; the whole chain already lies inside the guard
        have hstay : ∀ m u, tagChain tags (some c) m = some u → u.id ∈ guard := by
          intro m
          induction m with
          | zero => intro u hu; cases hu; exact hg
          | succ m ihm =>
            intro u hu
            unfold tagChain at hu
            rcases hv : tagChain tags (some c) m with _ | v
            · rw [hv] at hu; cases hu
            · rw [hv] at hu
              have hu2 : parentOfTag tags v = some u := hu
              have hvg : v.id ∈ guard := ihm v hv
              have hvc : CanonTag tags v := tagChain_canon hcc hv
              rcases hclose v.id hvg with ⟨cg, hcg, hcases⟩
              have hcgv : cg = v := by
                have hvc2 := hvc
                unfold CanonTag at hvc2
                rw [hvc2] at hcg
                exact (Option.some_inj.1 hcg).symm
              subst hcgv
              rcases hcases with hnone | ⟨c2, hc2, hc2g⟩
              · rw [hnone] at hu2; cases hu2
              · rw [hc2] at hu2
                cases hu2
                rcases hc2g with h2 | h2
                · exact h2
                · cases Option.some_inj.1 h2
                  exact hg
        simp only [lineageLoop, if_pos hg, hacc]
        exact hstay n t hchain
      · -- the walk adds `c.id` and recurses on the parent
        simp only [lineageLoop, if_neg hg]
        have hsub2 : c.id ∈ tags.map Tag.id :=
          List.mem_map.2 ⟨c, canonTag_mem hcc, rfl⟩
        have hrec := ih (parentOfTag tags c) (guard ++ [c.id]) (d + 1)
          (acc ++ [(c.id, d)])
          (fun c2 h2 => canonTag_parent h2)
          (by
            intro g hgm
            rcases List.mem_append.1 hgm with hgo | hgc
            · rcases hclose g hgo with ⟨cg, hcg, hcases⟩
              refine ⟨cg, hcg, ?_⟩
              rcases hcases with hnone | ⟨c2, hc2, hc2g⟩
              · exact Or.inl hnone
              · refine Or.inr ⟨c2, hc2, ?_⟩
                rcases hc2g with h2 | h2
                · exact Or.inl (List.mem_append.2 (Or.inl h2))
                · cases Option.some_inj.1 h2
                  exact Or.inl (List.mem_append.2 (Or.inr (by simp)))
            · have hgc2 : g = c.id := by simpa using hgc
              subst hgc2
              refine ⟨c, hcc, ?_⟩
              rcases hp : parentOfTag tags c with _ | c2
              · exact Or.inl rfl
              · exact Or.inr ⟨c2, rfl, Or.inr rfl⟩)
          (by simp [List.nodup_append, hnd, hg])
          (by
            intro g hgm
            rcases List.mem_append.1 hgm with hgo | hgc
            · exact hsub g hgo
            · have : g = c.id := by simpa using hgc
              subst this
              exact hsub2)
          (by simp [hacc])
          (by simp; omega)
        match n, hchain with
        | 0, hchain =>
          have hct : t = c := Option.some_inj.1 hchain.symm
          subst hct
          rcases lineageLoop_mono tags fuel (parentOfTag tags t) (guard ++ [t.id])
            (d + 1) (acc ++ [(t.id, d)]) with ⟨ext, hext⟩
          rw [hext]
          simp
        | n + 1, hchain =>
          rw [tagChain_shift] at hchain
          exact hrec n t hchain

/-- Membership in the computed lineage map is exactly membership on the
ancestor chain (self plus ancestors through `bind_id`). -/
theorem isTagInLineage_iff (p : ServiceProps) (tagId : String) (x : String) :
    isTagInLineage (lineageDepth p tagId) x = true ↔
      ∃ n t, tagChain p.filters (tagById p.filters tagId) n = some t ∧ t.id = x := by
  unfold isTagInLineage lineageDepth
  rw [alookup_isSome_iff]
  constructor
  · intro h
    rcases lineageLoop_sound p.filters _ _ _ _ _ _ h with hacc | hchain
    · simp at hacc
    · exact hchain
  · rintro ⟨n, t, hn, rfl⟩
    refine lineageLoop_complete p.filters (p.filters.length + 1)
      (tagById p.filters tagId) [] 0 []
      (fun c hc => canonTag_of_tagById hc)
      (by intro g hg; cases hg)
      List.nodup_nil
      (by intro g hg; cases hg)
      rfl
      ?_ n t hn
    have := List.Sublist.length_le (List.dedup_sublist (p.filters.map Tag.id))
    simp at this ⊢
    omega

/-! ## Base visible set with an empty selection -/

theorem mem_visStep (lin : List (String × Nat)) (tagInclude : List String)
    (vis : List String) (f : Field) (x : String) :
    x ∈ visStep lin tagInclude vis f ↔
      x ∈ vis ∨ (x = f.id ∧ (isBoundToLineage lin f = true ∨ f.id ∈ tagInclude)) := by
  unfold visStep
  split_ifs with h1 h2 h2 <;> simp only [mem_setAdd] <;> tauto

theorem mem_visStep_foldl (lin : List (String × Nat)) (tagInclude : List String) :
    ∀ (fields : List Field) (init : List String) (x : String),
      x ∈ fields.foldl (visStep lin tagInclude) init ↔
        x ∈ init ∨ ∃ f, f ∈ fields ∧ x = f.id ∧
          (isBoundToLineage lin f = true ∨ f.id ∈ tagInclude) := by
  intro fields
  induction fields with
  | nil => intro init x; simp
  | cons a fields ih =>
    intro init x
    rw [List.foldl_cons, ih, mem_visStep]
    constructor
    · rintro ((hx | ⟨hid, hcond⟩) | ⟨f, hf, hid, hcond⟩)
      · exact Or.inl hx
      · exact Or.inr ⟨a, List.mem_cons_self a fields, hid, hcond⟩
      · exact Or.inr ⟨f, List.mem_cons_of_mem a hf, hid, hcond⟩
    · rintro (hx | ⟨f, hf, hid, hcond⟩)
      · exact Or.inl (Or.inl hx)
      · rcases List.mem_cons.1 hf with rfl | hf2
        · exact Or.inl (Or.inr ⟨hid, hcond⟩)
        · exact Or.inr ⟨f, hf2, hid, hcond⟩

/-- The membership formula for the base visible set. -/
def baseFormula (p : ServiceProps) (tagId : String) (tag : Tag) (fid : String) : Prop :=
  (∃ f, f ∈ p.fields ∧ fid = f.id ∧
      (isBoundToLineage (lineageDepth p tagId) f = true ∨ f.id ∈ tag.includes)) ∧
    ¬ fid ∈ tag.excludes

theorem trigAccOf_empty (p : ServiceProps) (tagId : String) :
    trigAccOf p tagId [] = ⟨[], []⟩ := rfl

theorem visibleSetOf_empty (p : ServiceProps) (tagId : String) (tag : Tag) :
    visibleSetOf p tagId tag [] =
      (p.fields.foldl (visStep (lineageDepth p tagId) tag.includes) []).filter
        (fun id => ¬ (id ∈ tag.excludes)) := rfl

theorem visibleFieldIdsUnder_empty_sel (p : ServiceProps) (tagId : String)
    (tag : Tag) (h : tagById p.filters tagId = some tag) (fid : String) :
    fid ∈ visibleFieldIdsUnder p tagId [] ↔ baseFormula p tagId tag fid := by
  unfold visibleFieldIdsUnder
  simp only [h, trigAccOf_empty, visibleSetOf_empty, List.filter_nil]
  have hvis1 : ∀ x,
      x ∈ (p.fields.foldl (visStep (lineageDepth p tagId) tag.includes) []).filter
            (fun id => ¬ (id ∈ tag.excludes)) ↔
        baseFormula p tagId tag x := by
    intro x
    rw [List.mem_filter]
    rw [mem_visStep_foldl]
    unfold baseFormula
    simp
  set vis1 := (p.fields.foldl (visStep (lineageDepth p tagId) tag.includes) []).filter
      (fun id => ¬ (id ∈ tag.excludes)) with hdef
  have hbase : ∀ x,
      x ∈ (p.fields.filter (fun f => f.id ∈ vis1)).map Field.id ↔ x ∈ vis1 := by
    intro x
    simp only [List.mem_map, List.mem_filter]
    constructor
    · rintro ⟨f, ⟨hf, hfv⟩, rfl⟩
      simpa using hfv
    · intro hx
      rcases (hvis1 x).1 hx with ⟨⟨f, hf, rfl, _⟩, _⟩
      exact ⟨f, ⟨hf, by simpa using hx⟩, rfl⟩
  rcases horder : alookup (p.order_for_tags.getD []) tagId with _ | order
  · simp only [horder]
    rw [List.mem_append, List.mem_filter]
    constructor
    · rintro (h1 | ⟨h1, _⟩)
      · cases h1
      · exact (hvis1 fid).1 ((hbase fid).1 h1)
    · intro hf
      exact Or.inr ⟨(hbase fid).2 ((hvis1 fid).2 hf), by simp⟩
  · simp only [horder]
    by_cases hlen : order.length ≠ 0
    · simp only [if_pos hlen]
      rw [List.mem_append, List.mem_filter]
      constructor
      · rintro (⟨h1, h2⟩ | hrest)
        · exact (hvis1 fid).1 (of_decide_eq_true h2)
        · have h1 := (List.mem_filter.1 hrest).1
          exact (hvis1 fid).1 ((hbase fid).1 h1)
      · intro hf
        by_cases hmo : fid ∈ order.filter (fun fid => fid ∈ vis1)
        · have h2 := List.mem_filter.1 hmo
          exact Or.inl ⟨h2.1, h2.2⟩
        · refine Or.inr (List.mem_filter.2 ⟨(hbase fid).2 ((hvis1 fid).2 hf), ?_⟩)
          exact decide_eq_true hmo
    · simp only [if_neg hlen]
      rw [List.mem_append, List.mem_filter]
      constructor
      · rintro (h1 | ⟨h1, _⟩)
        · cases h1
        · exact (hvis1 fid).1 ((hbase fid).1 h1)
      · intro hf
        exact Or.inr ⟨(hbase fid).2 ((hvis1 fid).2 hf), by simp⟩

theorem visibleFieldIdsUnder_unknown (p : ServiceProps) (tagId : String)
    (h : tagById p.filters tagId = none) (sel : List String) :
    visibleFieldIdsUnder p tagId sel = [] := by
  unfold visibleFieldIdsUnder
  simp only [h]

/-- C3: with no triggers in play, `visibleFieldIdsUnder` returns exactly
the fields bound to the queried tag's lineage (self plus ancestors via
`bind_id` — the second conjunct identifies the computed lineage with the
iterated parent chain), union the queried tag's own `includes`, minus the
queried tag's own `excludes`.  The membership formula mentions no
ancestor's `includes`/`excludes`, so those never affect the result.  An
unknown tag id yields `[]`. -/
theorem claim_C3_base_visible_set (p : ServiceProps) (tagId : String) :
    (tagById p.filters tagId = none → visibleFieldIdsUnder p tagId [] = []) ∧
    (∀ x, isTagInLineage (lineageDepth p tagId) x = true ↔
      ∃ n t, tagChain p.filters (tagById p.filters tagId) n = some t ∧ t.id = x) ∧
    (∀ tag, tagById p.filters tagId = some tag →
      ∀ fid, fid ∈ visibleFieldIdsUnder p tagId [] ↔ baseFormula p tagId tag fid) :=
  ⟨fun h => visibleFieldIdsUnder_unknown p tagId h [],
   fun x => isTagInLineage_iff p tagId x,
   fun tag h fid => visibleFieldIdsUnder_empty_sel p tagId tag h fid⟩

/-- Concrete document for the C3 witness: tags `root → A → B`, a field
`f1` bound to `root`, a field `f2` appearing only in `A.includes`. -/
def pC3 : ServiceProps :=
  { filters :=
      [{ id := "root", label := "Root" },
       { id := "A", label := "A", bind_id := some "root", includes := ["f2"] },
       { id := "B", label := "B", bind_id := some "A" }]
    fields := [{ id := "f1", bind_id := .one "root" }, { id := "f2" }] }

def tagB : Tag := { id := "B", label := "B", bind_id := some "A" }

theorem claim_C3_witness :
    ("f1" ∈ visibleFieldIdsUnder pC3 "B" []) ∧
    (¬ "f2" ∈ visibleFieldIdsUnder pC3 "B" []) ∧
    visibleFieldIdsUnder pC3 "missing" [] = [] ∧
    isTagInLineage (lineageDepth pC3 "B") "root" = true := by
  have h := claim_C3_base_visible_set pC3 "B"
  refine ⟨?_, ?_, ?_, ?_⟩
  · exact (h.2.2 tagB (by decide) "f1").2 (by
      refine ⟨⟨{ id := "f1", bind_id := .one "root" }, ?_, rfl, ?_⟩, ?_⟩
      · decide
      · left; decide
      · decide)
  · intro hmem
    have hform := (h.2.2 tagB (by decide) "f2").1 hmem
    unfold baseFormula at hform
    revert hform
    decide
  · exact (claim_C3_base_visible_set pC3 "missing").1 (by decide)
  · exact (h.2.1 "root").2 ⟨2, { id := "root", label := "Root" }, by decide, rfl⟩

/-! ## Decision composition: characterization of repeated `applyDecision` -/

/-- Folding a list of decisions for one field through `applyDecision`,
starting from an empty map slot. -/
def foldDec (ds : List BDec) : Option BDec :=
  ds.foldl (fun a d => some (applyDecision a d)) none

theorem applyDecision_pair (a e : BDec) :
    (applyDecision (some a) e = a ∨ applyDecision (some a) e = e) ∧
    (applyDecision (some a) e).depth ≤ a.depth ∧
    (applyDecision (some a) e).depth ≤ e.depth ∧
    ((applyDecision (some a) e).kind = .exc ↔
      (a.depth = (applyDecision (some a) e).depth ∧ a.kind = .exc) ∨
        (e.depth = (applyDecision (some a) e).depth ∧ e.kind = .exc)) := by
  simp only [applyDecision]
  split_ifs with h1 h2 h3
  · refine ⟨Or.inr rfl, by omega, le_refl _, ?_⟩
    constructor
    · intro hk; exact Or.inr ⟨rfl, hk⟩
    · rintro (⟨hd, hk⟩ | ⟨_, hk⟩)
      · omega
      · exact hk
  · refine ⟨Or.inl rfl, le_refl _, by omega, ?_⟩
    constructor
    · intro hk; exact Or.inl ⟨rfl, hk⟩
    · rintro (⟨_, hk⟩ | ⟨hd, hk⟩)
      · exact hk
      · omega
  · have hd : a.depth = e.depth := by omega
    refine ⟨Or.inr rfl, by omega, le_refl _, ?_⟩
    constructor
    · intro hk; exact Or.inr ⟨rfl, hk⟩
    · intro _; exact h3.2
  · have hd : a.depth = e.depth := by omega
    refine ⟨Or.inl rfl, le_refl _, by omega, ?_⟩
    constructor
    · intro hk; exact Or.inl ⟨rfl, hk⟩
    · rintro (⟨_, hk⟩ | ⟨_, hk⟩)
      · exact hk
      · cases hka : a.kind
        · exact absurd ⟨hka, hk⟩ h3
        · rfl

theorem foldDec_go_char :
    ∀ (ds : List BDec) (a : BDec),
      ∃ r, ds.foldl (fun a d => some (applyDecision a d)) (some a) = some r ∧
        r ∈ a :: ds ∧ (∀ e ∈ a :: ds, r.depth ≤ e.depth) ∧
        (r.kind = .exc ↔ ∃ e ∈ a :: ds, e.depth = r.depth ∧ e.kind = .exc) := by
  intro ds
  induction ds with
  | nil =>
    intro a
    refine ⟨a, rfl, List.mem_singleton.2 rfl, ?_, ?_⟩
    · intro e he
      rcases List.mem_singleton.1 he with rfl
      exact le_refl _
    · constructor
      · intro hk; exact ⟨a, List.mem_singleton.2 rfl, rfl, hk⟩
      · rintro ⟨e, he, _, hk⟩
        rcases List.mem_singleton.1 he with rfl
        exact hk
  | cons e ds ih =>
    intro a
    rw [List.foldl_cons]
    rcases ih (applyDecision (some a) e) with ⟨r, hfold, hmem, hmin, hkind⟩
    rcases applyDecision_pair a e with ⟨hp, hpa, hpe, hpk⟩
    refine ⟨r, hfold, ?_, ?_, ?_⟩
    · rcases List.mem_cons.1 hmem with rfl | hmem2
      · rcases hp with hp | hp
        · rw [hp]; exact List.mem_cons_self _ _
        · rw [hp]
          exact List.mem_cons_of_mem _ (List.mem_cons_self _ _)
      · exact List.mem_cons_of_mem _ (List.mem_cons_of_mem _ hmem2)
    · intro x hx
      have hra : r.depth ≤ (applyDecision (some a) e).depth :=
        hmin _ (List.mem_cons_self _ _)
      rcases List.mem_cons.1 hx with rfl | hx2
      · exact le_trans hra hpa
      · rcases List.mem_cons.1 hx2 with rfl | hx3
        · exact le_trans hra hpe
        · exact hmin _ (List.mem_cons_of_mem _ hx3)
    · constructor
      · intro hk
        rcases hkind.1 hk with ⟨w, hw, hwd, hwk⟩
        rcases List.mem_cons.1 hw with rfl | hw2
        · -- the witness is the pairwise combination of `a` and `e`
          rcases hpk.1 hwk with ⟨hda, hka⟩ | ⟨hde, hke⟩
          · exact ⟨a, List.mem_cons_self _ _, by omega, hka⟩
          · exact ⟨e, List.mem_cons_of_mem _ (List.mem_cons_self _ _), by omega, hke⟩
        · exact ⟨w, List.mem_cons_of_mem _ (List.mem_cons_of_mem _ hw2), hwd, hwk⟩
      · rintro ⟨w, hw, hwd, hwk⟩
        have hra : r.depth ≤ (applyDecision (some a) e).depth :=
          hmin _ (List.mem_cons_self _ _)
        rcases List.mem_cons.1 hw with heq | hw2
        · -- witness is `a`; the pairwise combination is then an exclude at the same depth
          rw [heq] at hwd hwk
          have hda : (applyDecision (some a) e).depth = r.depth := by
            have := hpa; omega
          have : (applyDecision (some a) e).kind = .exc :=
            hpk.2 (Or.inl ⟨by omega, hwk⟩)
          exact hkind.2 ⟨applyDecision (some a) e, List.mem_cons_self _ _, hda, this⟩
        · rcases List.mem_cons.1 hw2 with heq | hw3
          · rw [heq] at hwd hwk
            have hda : (applyDecision (some a) e).depth = r.depth := by
              have := hpe; omega
            have : (applyDecision (some a) e).kind = .exc :=
              hpk.2 (Or.inr ⟨by omega, hwk⟩)
            exact hkind.2 ⟨applyDecision (some a) e, List.mem_cons_self _ _, hda, this⟩
          · exact hkind.2 ⟨w, List.mem_cons_of_mem _ hw3, hwd, hwk⟩

theorem foldDec_char (ds : List BDec) (hne : ds ≠ []) :
    ∃ r, foldDec ds = some r ∧ r ∈ ds ∧ (∀ e ∈ ds, r.depth ≤ e.depth) ∧
      (r.kind = .exc ↔ ∃ e ∈ ds, e.depth = r.depth ∧ e.kind = .exc) := by
  match ds, hne with
  | d :: ds, _ =>
    have : foldDec (d :: ds) =
        ds.foldl (fun a d => some (applyDecision a d)) (some d) := rfl
    rw [this]
    exact foldDec_go_char ds d

theorem foldDec_perm (ds1 ds2 : List BDec) (h : ds1.Perm ds2) :
    foldDec ds1 = foldDec ds2 := by
  match ds1, ds2, h with
  | [], ds2, h =>
    have : ds2 = [] := h.symm.eq_nil
    rw [this]
  | d1 :: t1, ds2, h =>
    have hne1 : d1 :: t1 ≠ [] := by simp
    have hne2 : ds2 ≠ [] := by
      intro h2
      subst h2
      exact absurd h.eq_nil (by simp)
    rcases foldDec_char (d1 :: t1) hne1 with ⟨r1, hf1, hm1, hmin1, hk1⟩
    rcases foldDec_char ds2 hne2 with ⟨r2, hf2, hm2, hmin2, hk2⟩
    have hmem12 : ∀ x, x ∈ d1 :: t1 ↔ x ∈ ds2 := fun x => h.mem_iff
    have hd : r1.depth = r2.depth :=
      le_antisymm (hmin1 _ ((hmem12 r2).2 hm2)) (hmin2 _ ((hmem12 r1).1 hm1))
    have hk : r1.kind = r2.kind := by
      cases hkr1 : r1.kind <;> cases hkr2 : r2.kind
      · rfl
      · rcases hk2.1 hkr2 with ⟨w, hw, hwd, hwk⟩
        have : r1.kind = .exc := hk1.2 ⟨w, (hmem12 w).2 hw, by omega, hwk⟩
        rw [hkr1] at this
        cases this
      · rcases hk1.1 hkr1 with ⟨w, hw, hwd, hwk⟩
        have : r2.kind = .exc := hk2.2 ⟨w, (hmem12 w).1 hw, by omega, hwk⟩
        rw [hkr2] at this
        cases this
      · rfl
    rw [hf1, hf2]
    cases r1
    cases r2
    simp only at hd hk
    rw [hd, hk]

/-! ## Association-map update lemmas (JS `Map.set`) -/

theorem alookup_any_false (m : List (String × α)) (k : String)
    (h : m.any (fun e => e.1 = k) = false) : alookup m k = none := by
  induction m with
  | nil => rfl
  | cons e m ih =>
    simp only [List.any_cons, Bool.or_eq_false_iff] at h
    rw [alookup_cons, if_neg (by simpa using h.1)]
    exact ih h.2

theorem alookup_map_replace (k : String) (v : α) (k2 : String) (hk : ¬ k = k2) :
    ∀ m : List (String × α),
      alookup (m.map (fun e => if e.1 = k then (k, v) else e)) k2 = alookup m k2 := by
  intro m
  induction m with
  | nil => rfl
  | cons e m ih =>
    rw [List.map_cons, alookup_cons, alookup_cons]
    by_cases he : e.1 = k
    · simp only [if_pos he, if_neg hk]
      rw [if_neg (by rw [he]; exact hk)]
      exact ih
    · simp only [if_neg he]
      by_cases he2 : e.1 = k2
      · rw [if_pos he2, if_pos he2]
      · rw [if_neg he2, if_neg he2]
        exact ih

theorem alookup_map_replace_hit (k : String) (v : α) :
    ∀ m : List (String × α), m.any (fun e => e.1 = k) = true →
      alookup (m.map (fun e => if e.1 = k then (k, v) else e)) k = some v := by
  intro m
  induction m with
  | nil => intro h; cases h
  | cons e m ih =>
    intro h
    rw [List.map_cons, alookup_cons]
    by_cases he : e.1 = k
    · simp [if_pos he]
    · simp only [if_neg he]
      simp only [List.any_cons, Bool.or_eq_true] at h
      rcases h with h | h
      · exact absurd (by simpa using h) he
      · exact ih h

theorem alookup_mapSet (m : List (String × α)) (k : String) (v : α) (k2 : String) :
    alookup (mapSet m k v) k2 = if k = k2 then some v else alookup m k2 := by
  unfold mapSet
  by_cases hany : m.any (fun e => e.1 = k)
  · rw [if_pos hany]
    by_cases hk : k = k2
    · subst hk
      rw [if_pos rfl]
      exact alookup_map_replace_hit k v m hany
    · rw [if_neg hk]
      exact alookup_map_replace k v k2 hk m
  · rw [if_neg hany]
    rw [alookup_append]
    have hfalse : m.any (fun e => e.1 = k) = false := by
      cases hb : m.any (fun e => e.1 = k)
      · rfl
      · exact absurd hb hany
    by_cases hk : k = k2
    · subst hk
      rw [alookup_any_false m k hfalse]
      simp [alookup_cons]
    · rcases hm : alookup m k2 with _ | w
      · simp only []
        rw [alookup_cons, if_neg hk, if_neg hk]
        rfl
      · simp [if_neg hk]

theorem mapSet_keys (m : List (String × α)) (k : String) (v : α) :
    (mapSet m k v).map Prod.fst =
      if m.any (fun e => e.1 = k) then m.map Prod.fst
      else m.map Prod.fst ++ [k] := by
  unfold mapSet
  by_cases hany : m.any (fun e => e.1 = k)
  · rw [if_pos hany, if_pos hany, List.map_map]
    apply List.map_congr_left
    intro e _
    by_cases he : e.1 = k
    · simp [he]
    · simp [he]
  · rw [if_neg hany, if_neg hany]
    simp

theorem mapSet_keys_nodup (m : List (String × α)) (k : String) (v : α)
    (h : (m.map Prod.fst).Nodup) : ((mapSet m k v).map Prod.fst).Nodup := by
  rw [mapSet_keys]
  by_cases hany : m.any (fun e => e.1 = k)
  · rw [if_pos hany]; exact h
  · rw [if_neg hany]
    have hk : ¬ k ∈ m.map Prod.fst := by
      intro hmem
      rcases List.mem_map.1 hmem with ⟨e, he, rfl⟩
      have : m.any (fun e2 => e2.1 = e.1) = true :=
        List.any_eq_true.2 ⟨e, he, by simp⟩
      rw [this] at hany
      exact hany rfl
    simp [List.nodup_append, h, hk]

/-! ## Per-field decomposition of the trigger-decision loop -/

/-- The decisions a single field receives, in processing order, from a
list of triggers (a proof-side projection of the loop). -/
def decsFor (incM excM : List (String × List String))
    (ownerDepth : String → Option Nat) (fid : String) (ts : List String) :
    List BDec :=
  ts.flatMap (fun t =>
    match ownerDepth t with
    | none => []
    | some d =>
      (((alookup incM t).getD []).filter (fun id => id = fid)).map
          (fun _ => (⟨d, .inc⟩ : BDec)) ++
        (((alookup excM t).getD []).filter (fun id => id = fid)).map
          (fun _ => (⟨d, .exc⟩ : BDec)))

theorem alookup_incStep_foldl (d : Nat) (fid : String) :
    ∀ (ids : List String) (a : TrigAcc),
      alookup ((ids.foldl (incStep d) a).decide) fid =
        ((ids.filter (fun id => id = fid)).map (fun _ => (⟨d, .inc⟩ : BDec))).foldl
          (fun acc dec => some (applyDecision acc dec)) (alookup a.decide fid) := by
  intro ids
  induction ids with
  | nil => intro a; rfl
  | cons id ids ih =>
    intro a
    rw [List.foldl_cons, ih]
    by_cases hid : id = fid
    · subst hid
      simp only [List.filter_cons, decide_True, if_true, List.map_cons, List.foldl_cons]
      congr 1
      show alookup (applyDecisionMap a.decide id ⟨d, .inc⟩) id = _
      unfold applyDecisionMap
      rw [alookup_mapSet]
      simp
    · simp only [List.filter_cons]
      rw [if_neg (by simpa using hid)]
      congr 1
      show alookup (applyDecisionMap a.decide id ⟨d, .inc⟩) fid = _
      unfold applyDecisionMap
      rw [alookup_mapSet, if_neg hid]

theorem alookup_excStep_foldl (d : Nat) (fid : String) :
    ∀ (ids : List String) (a : TrigAcc),
      alookup ((ids.foldl (excStep d) a).decide) fid =
        ((ids.filter (fun id => id = fid)).map (fun _ => (⟨d, .exc⟩ : BDec))).foldl
          (fun acc dec => some (applyDecision acc dec)) (alookup a.decide fid) := by
  intro ids
  induction ids with
  | nil => intro a; rfl
  | cons id ids ih =>
    intro a
    rw [List.foldl_cons, ih]
    by_cases hid : id = fid
    · subst hid
      simp only [List.filter_cons, decide_True, if_true, List.map_cons, List.foldl_cons]
      congr 1
      show alookup (applyDecisionMap a.decide id ⟨d, .exc⟩) id = _
      unfold applyDecisionMap
      rw [alookup_mapSet]
      simp
    · simp only [List.filter_cons]
      rw [if_neg (by simpa using hid)]
      congr 1
      show alookup (applyDecisionMap a.decide id ⟨d, .exc⟩) fid = _
      unfold applyDecisionMap
      rw [alookup_mapSet, if_neg hid]

theorem alookup_applyTrigger_foldl (incM excM : List (String × List String))
    (ownerDepth : String → Option Nat) (fid : String) :
    ∀ (ts : List String) (a : TrigAcc),
      alookup ((ts.foldl (applyTrigger incM excM ownerDepth) a).decide) fid =
        (decsFor incM excM ownerDepth fid ts).foldl
          (fun acc dec => some (applyDecision acc dec)) (alookup a.decide fid) := by
  intro ts
  induction ts with
  | nil => intro a; rfl
  | cons t ts ih =>
    intro a
    rw [List.foldl_cons, ih]
    unfold decsFor
    rw [List.flatMap_cons, List.foldl_append]
    congr 1
    unfold applyTrigger
    rcases hd : ownerDepth t with _ | d
    · rfl
    · rw [alookup_excStep_foldl, alookup_incStep_foldl, List.foldl_append]

theorem revealed_excStep_foldl (d : Nat) :
    ∀ (ids : List String) (a : TrigAcc),
      (ids.foldl (excStep d) a).revealed = a.revealed := by
  intro ids
  induction ids with
  | nil => intro a; rfl
  | cons id ids ih => intro a; rw [List.foldl_cons, ih]; rfl

theorem mem_revealed_incStep_foldl (d : Nat) (fid : String) :
    ∀ (ids : List String) (a : TrigAcc),
      fid ∈ (ids.foldl (incStep d) a).revealed ↔ fid ∈ a.revealed ∨ fid ∈ ids := by
  intro ids
  induction ids with
  | nil => intro a; simp
  | cons id ids ih =>
    intro a
    rw [List.foldl_cons, ih]
    show (fid ∈ setAdd a.revealed id ∨ _) ↔ _
    rw [mem_setAdd]
    simp only [List.mem_cons]
    tauto

theorem mem_revealed_applyTrigger_foldl (incM excM : List (String × List String))
    (ownerDepth : String → Option Nat) (fid : String) :
    ∀ (ts : List String) (a : TrigAcc),
      fid ∈ (ts.foldl (applyTrigger incM excM ownerDepth) a).revealed ↔
        fid ∈ a.revealed ∨
          ∃ t ∈ ts, (ownerDepth t).isSome ∧ fid ∈ (alookup incM t).getD [] := by
  intro ts
  induction ts with
  | nil => intro a; simp
  | cons t ts ih =>
    intro a
    rw [List.foldl_cons, ih]
    have hstep : fid ∈ (applyTrigger incM excM ownerDepth a t).revealed ↔
        fid ∈ a.revealed ∨ ((ownerDepth t).isSome ∧ fid ∈ (alookup incM t).getD []) := by
      unfold applyTrigger
      rcases hd : ownerDepth t with _ | d
      · simp [hd]
      · rw [revealed_excStep_foldl, mem_revealed_incStep_foldl]
        simp [hd]
    rw [hstep]
    constructor
    · rintro ((ha | hx) | ⟨w, hw, hws, hwm⟩)
      · exact Or.inl ha
      · exact Or.inr ⟨t, List.mem_cons_self _ _, hx.1, hx.2⟩
      · exact Or.inr ⟨w, List.mem_cons_of_mem _ hw, hws, hwm⟩
    · rintro (ha | ⟨w, hw, hws, hwm⟩)
      · exact Or.inl (Or.inl ha)
      · rcases List.mem_cons.1 hw with rfl | hw2
        · exact Or.inl (Or.inr ⟨hws, hwm⟩)
        · exact Or.inr ⟨w, hw2, hws, hwm⟩

theorem decide_keys_nodup_incStep (d : Nat) :
    ∀ (ids : List String) (a : TrigAcc),
      (a.decide.map Prod.fst).Nodup →
      (((ids.foldl (incStep d) a).decide).map Prod.fst).Nodup := by
  intro ids
  induction ids with
  | nil => intro a h; exact h
  | cons id ids ih =>
    intro a h
    rw [List.foldl_cons]
    exact ih _ (mapSet_keys_nodup _ _ _ h)

theorem decide_keys_nodup_excStep (d : Nat) :
    ∀ (ids : List String) (a : TrigAcc),
      (a.decide.map Prod.fst).Nodup →
      (((ids.foldl (excStep d) a).decide).map Prod.fst).Nodup := by
  intro ids
  induction ids with
  | nil => intro a h; exact h
  | cons id ids ih =>
    intro a h
    rw [List.foldl_cons]
    exact ih _ (mapSet_keys_nodup _ _ _ h)

theorem decide_keys_nodup (incM excM : List (String × List String))
    (ownerDepth : String → Option Nat) :
    ∀ (ts : List String) (a : TrigAcc),
      (a.decide.map Prod.fst).Nodup →
      (((ts.foldl (applyTrigger incM excM ownerDepth) a).decide).map Prod.fst).Nodup := by
  intro ts
  induction ts with
  | nil => intro a h; exact h
  | cons t ts ih =>
    intro a h
    rw [List.foldl_cons]
    refine ih _ ?_
    unfold applyTrigger
    rcases hd : ownerDepth t with _ | d
    · exact h
    · exact decide_keys_nodup_excStep _ _ _ (decide_keys_nodup_incStep _ _ _ h)

/-- Applying the finished `decide` map to the visible set: membership is
decided by the field's final decision if there is one. -/
theorem mem_applyDecideStep_foldl :
    ∀ (dm : List (String × BDec)), (dm.map Prod.fst).Nodup →
      ∀ (vis : List String) (x : String),
        x ∈ dm.foldl applyDecideStep vis ↔
          (match alookup dm x with
           | some dec => dec.kind = .inc
           | none => x ∈ vis) := by
  intro dm
  induction dm with
  | nil => intro _ vis x; simp [alookup_nil]
  | cons e rest ih =>
    intro hnd vis x
    obtain ⟨k, dec⟩ := e
    have hnd2 : (rest.map Prod.fst).Nodup := (List.nodup_cons.1 hnd).2
    have hkey : ¬ k ∈ rest.map Prod.fst := by
      have h2 := (List.nodup_cons.1 hnd).1
      simpa using h2
    rw [List.foldl_cons, ih hnd2, alookup_cons]
    by_cases hx : k = x
    · subst hx
      rw [if_pos rfl, (alookup_eq_none_iff rest k).2 hkey]
      show (k ∈ applyDecideStep vis (k, dec)) ↔ dec.kind = DKind.inc
      cases hkind : dec.kind
      · have happ : applyDecideStep vis (k, dec) = setAdd vis k := by
          unfold applyDecideStep
          rw [hkind]
        rw [happ]
        simp [mem_setAdd]
      · have happ : applyDecideStep vis (k, dec) =
            vis.filter (fun id => ¬ (id = k)) := by
          unfold applyDecideStep
          rw [hkind]
        rw [happ]
        simp [List.mem_filter]
    · rw [if_neg hx]
      rcases hrest : alookup rest x with _ | dec2
      · simp only [hrest]
        have hx2 : ¬ x = k := fun h2 => hx h2.symm
        cases hkind : dec.kind
        · have happ : applyDecideStep vis (k, dec) = setAdd vis k := by
            unfold applyDecideStep
            rw [hkind]
          rw [happ, mem_setAdd]
          simp [hx2]
        · have happ : applyDecideStep vis (k, dec) =
              vis.filter (fun id => ¬ (id = k)) := by
            unfold applyDecideStep
            rw [hkind]
          rw [happ, List.mem_filter]
          simp [hx2]
      · simp only [hrest]

/-! ## Full characterization of the visible set and the output order -/

theorem decide_lookup_trigAccOf (p : ServiceProps) (tagId : String)
    (sel : List String) (fid : String) :
    alookup (trigAccOf p tagId sel).decide fid =
      foldDec (decsFor (p.includes_for_buttons.getD [])
        (p.excludes_for_buttons.getD []) (ownerDepthOf p tagId) fid
        (sel.filter (fun key => ((ownerDepthOf p tagId) key).isSome))) := by
  unfold trigAccOf foldDec
  exact alookup_applyTrigger_foldl _ _ _ fid _ ⟨[], []⟩

theorem trigAccOf_keys_nodup (p : ServiceProps) (tagId : String)
    (sel : List String) :
    (((trigAccOf p tagId sel).decide).map Prod.fst).Nodup := by
  unfold trigAccOf
  exact decide_keys_nodup _ _ _ _ ⟨[], []⟩ List.nodup_nil

theorem mem_revealed_trigAccOf (p : ServiceProps) (tagId : String)
    (sel : List String) (fid : String) :
    fid ∈ (trigAccOf p tagId sel).revealed ↔
      ∃ t ∈ sel.filter (fun key => ((ownerDepthOf p tagId) key).isSome),
        ((ownerDepthOf p tagId) t).isSome ∧
          fid ∈ (alookup (p.includes_for_buttons.getD []) t).getD [] := by
  unfold trigAccOf
  rw [mem_revealed_applyTrigger_foldl]
  simp

/-- Membership in the visible set after decisions: the field's final
decision rules, otherwise the base formula. -/
theorem mem_visibleSetOf (p : ServiceProps) (tagId : String) (tag : Tag)
    (sel : List String) (x : String) :
    x ∈ visibleSetOf p tagId tag sel ↔
      (match alookup (trigAccOf p tagId sel).decide x with
       | some dec => dec.kind = DKind.inc
       | none => baseFormula p tagId tag x) := by
  unfold visibleSetOf
  rw [mem_applyDecideStep_foldl _ (trigAccOf_keys_nodup p tagId sel)]
  rcases h : alookup (trigAccOf p tagId sel).decide x with _ | dec
  · simp only []
    rw [List.mem_filter, mem_visStep_foldl]
    unfold baseFormula
    simp
  · simp only []

theorem mem_baseList (fields : List Field) (vis : List String) (x : String) :
    x ∈ (fields.filter (fun f => f.id ∈ vis)).map Field.id ↔
      (∃ f, f ∈ fields ∧ f.id = x) ∧ x ∈ vis := by
  simp only [List.mem_map, List.mem_filter]
  constructor
  · rintro ⟨f, ⟨hf, hfv⟩, rfl⟩
    exact ⟨⟨f, hf, rfl⟩, of_decide_eq_true hfv⟩
  · rintro ⟨⟨f, hf, rfl⟩, hv⟩
    exact ⟨f, ⟨hf, decide_eq_true hv⟩, rfl⟩

theorem mem_pins_append (pins base vis : List String) (x : String) :
    x ∈ pins.filter (fun fid => fid ∈ vis) ++
        base.filter (fun fid => ¬ (fid ∈ pins.filter (fun fid => fid ∈ vis))) ↔
      (x ∈ pins ∧ x ∈ vis) ∨ x ∈ base := by
  rw [List.mem_append, List.mem_filter, List.mem_filter]
  constructor
  · rintro (⟨hp, hv⟩ | ⟨hb, _⟩)
    · exact Or.inl ⟨hp, of_decide_eq_true hv⟩
    · exact Or.inr hb
  · rintro (⟨hp, hv⟩ | hb)
    · exact Or.inl ⟨hp, decide_eq_true hv⟩
    · by_cases hx : x ∈ pins.filter (fun fid => fid ∈ vis)
      · have h2 := List.mem_filter.1 hx
        exact Or.inl h2
      · exact Or.inr ⟨hb, decide_eq_true hx⟩

/-- The pinned list that opens the output: `order_for_tags[tagId]` when
present and nonempty, otherwise the revealed order. -/
def promotedSource (p : ServiceProps) (tagId : String) (sel : List String) :
    List String :=
  match alookup (p.order_for_tags.getD []) tagId with
  | some order =>
    if order.length ≠ 0 then order else (trigAccOf p tagId sel).revealed
  | none => (trigAccOf p tagId sel).revealed

theorem mem_visibleFieldIdsUnder_char (p : ServiceProps) (tagId : String)
    (tag : Tag) (h : tagById p.filters tagId = some tag) (sel : List String)
    (x : String) :
    x ∈ visibleFieldIdsUnder p tagId sel ↔
      x ∈ visibleSetOf p tagId tag sel ∧
        (x ∈ promotedSource p tagId sel ∨ ∃ f, f ∈ p.fields ∧ f.id = x) := by
  unfold visibleFieldIdsUnder promotedSource
  simp only [h]
  rcases horder : alookup (p.order_for_tags.getD []) tagId with _ | order
  · simp only [horder]
    rw [mem_pins_append, mem_baseList]
    tauto
  · simp only [horder]
    by_cases hlen : order.length ≠ 0
    · simp only [if_pos hlen]
      rw [mem_pins_append, mem_baseList]
      tauto
    · simp only [if_neg hlen]
      rw [mem_pins_append, mem_baseList]
      tauto

/-! ## Selection-membership invariance (C9) and decision precedence (C2) -/

theorem visibleSetOf_selection_inv (p : ServiceProps) (tagId : String) (tag : Tag)
    (s1 s2 : List String) (h1 : s1.Nodup) (h2 : s2.Nodup)
    (hm : ∀ k, k ∈ s1 ↔ k ∈ s2) (x : String) :
    (x ∈ visibleSetOf p tagId tag s1 ↔ x ∈ visibleSetOf p tagId tag s2) := by
  have hperm : s1.Perm s2 := (List.perm_ext_iff_of_nodup h1 h2).2 hm
  have hrel : (s1.filter (fun key => ((ownerDepthOf p tagId) key).isSome)).Perm
      (s2.filter (fun key => ((ownerDepthOf p tagId) key).isSome)) :=
    hperm.filter _
  have hdec : alookup (trigAccOf p tagId s1).decide x =
      alookup (trigAccOf p tagId s2).decide x := by
    rw [decide_lookup_trigAccOf, decide_lookup_trigAccOf]
    apply foldDec_perm
    exact hrel.flatMap_right _
  rw [mem_visibleSetOf, mem_visibleSetOf, hdec]

/-- C9 amended: two selections holding the same keys produce visible
lists with the same members (the list order can differ in the
revealed-first segment, which follows the selection's insertion order). -/
theorem claim_C9_selection_membership (p : ServiceProps) (tagId : String)
    (s1 s2 : List String) (h1 : s1.Nodup) (h2 : s2.Nodup)
    (hm : ∀ k, k ∈ s1 ↔ k ∈ s2) (fid : String) :
    fid ∈ visibleFieldIdsUnder p tagId s1 ↔ fid ∈ visibleFieldIdsUnder p tagId s2 := by
  rcases h : tagById p.filters tagId with _ | tag
  · rw [visibleFieldIdsUnder_unknown p tagId h s1,
      visibleFieldIdsUnder_unknown p tagId h s2]
  · rw [mem_visibleFieldIdsUnder_char p tagId tag h s1 fid,
      mem_visibleFieldIdsUnder_char p tagId tag h s2 fid]
    have hperm : s1.Perm s2 := (List.perm_ext_iff_of_nodup h1 h2).2 hm
    have hrel : (s1.filter (fun key => ((ownerDepthOf p tagId) key).isSome)).Perm
        (s2.filter (fun key => ((ownerDepthOf p tagId) key).isSome)) :=
      hperm.filter _
    have hvis := visibleSetOf_selection_inv p tagId tag s1 s2 h1 h2 hm fid
    have hprom : fid ∈ promotedSource p tagId s1 ↔ fid ∈ promotedSource p tagId s2 := by
      unfold promotedSource
      rcases horder : alookup (p.order_for_tags.getD []) tagId with _ | order
      · rw [mem_revealed_trigAccOf, mem_revealed_trigAccOf]
        constructor
        · rintro ⟨t, ht, hs, hmem⟩
          exact ⟨t, hrel.mem_iff.1 ht, hs, hmem⟩
        · rintro ⟨t, ht, hs, hmem⟩
          exact ⟨t, hrel.mem_iff.2 ht, hs, hmem⟩
      · by_cases hlen : order.length ≠ 0
        · simp only [if_pos hlen]
        · simp only [if_neg hlen]
          rw [mem_revealed_trigAccOf, mem_revealed_trigAccOf]
          constructor
          · rintro ⟨t, ht, hs, hmem⟩
            exact ⟨t, hrel.mem_iff.1 ht, hs, hmem⟩
          · rintro ⟨t, ht, hs, hmem⟩
            exact ⟨t, hrel.mem_iff.2 ht, hs, hmem⟩
    rw [hvis, hprom]

/-- Concrete document showing the ordered output depends on the
selection's insertion order: two button triggers each reveal one field. -/
def pC9 : ServiceProps :=
  { filters := [{ id := "root", label := "Root" }]
    fields :=
      [{ id := "a" }, { id := "b" },
       { id := "t1", bind_id := .one "root", button := true },
       { id := "t2", bind_id := .one "root", button := true }]
    includes_for_buttons := some [("t1", ["a"]), ("t2", ["b"])] }

/-- C9 as stated is false: the two selections hold the same keys, yet the
ordered lists differ (`[a, b, t1, t2]` versus `[b, a, t1, t2]`). -/
theorem claim_C9_counterexample :
    (∀ k, k ∈ (["t1", "t2"] : List String) ↔ k ∈ (["t2", "t1"] : List String)) ∧
    (["t1", "t2"] : List String).Nodup ∧ (["t2", "t1"] : List String).Nodup ∧
    visibleFieldIdsUnder pC9 "root" ["t1", "t2"] ≠
      visibleFieldIdsUnder pC9 "root" ["t2", "t1"] := by
  refine ⟨?_, by decide, by decide, by decide⟩
  intro k
  constructor <;> intro h <;> simp at h <;> rcases h with rfl | rfl <;> simp

/-- C2: `applyDecision` composition.  Folding any multiset of decisions is
order-independent; the result carries the minimum depth and is an exclude
exactly when some decision at that depth is an exclude; an equal-depth
include/exclude pair yields the exclude both ways; and a field whose
final decision is an exclude is absent from the visible list. -/
theorem claim_C2_decision_precedence :
    (∀ ds1 ds2 : List BDec, ds1.Perm ds2 → foldDec ds1 = foldDec ds2) ∧
    (∀ ds : List BDec, ds ≠ [] → ∃ r, foldDec ds = some r ∧ r ∈ ds ∧
      (∀ e ∈ ds, r.depth ≤ e.depth) ∧
      (r.kind = DKind.exc ↔ ∃ e ∈ ds, e.depth = r.depth ∧ e.kind = DKind.exc)) ∧
    (∀ d : Nat, foldDec [⟨d, .inc⟩, ⟨d, .exc⟩] = some ⟨d, .exc⟩ ∧
      foldDec [⟨d, .exc⟩, ⟨d, .inc⟩] = some ⟨d, .exc⟩) ∧
    (∀ (p : ServiceProps) (tagId : String) (tag : Tag) (sel : List String)
      (fid : String),
      tagById p.filters tagId = some tag →
      (alookup (trigAccOf p tagId sel).decide fid).map BDec.kind = some DKind.exc →
      ¬ fid ∈ visibleFieldIdsUnder p tagId sel) := by
  refine ⟨foldDec_perm, foldDec_char, ?_, ?_⟩
  · intro d
    constructor <;> simp [foldDec, applyDecision, lt_irrefl]
  · intro p tagId tag sel fid htag hdec hmem
    have hvis := (mem_visibleFieldIdsUnder_char p tagId tag htag sel fid).1 hmem
    have hset := (mem_visibleSetOf p tagId tag sel fid).1 hvis.1
    rcases hl : alookup (trigAccOf p tagId sel).decide fid with _ | dec
    · rw [hl] at hdec; cases hdec
    · rw [hl] at hdec hset
      have hkind : dec.kind = DKind.exc := by simpa using hdec
      have hset2 : dec.kind = DKind.inc := hset
      rw [hkind] at hset2
      cases hset2

/-- Concrete document for the C2 witness: at equal depth, trigger `t1`
includes field `a` while `t2` excludes it. -/
def pC2 : ServiceProps :=
  { filters := [{ id := "root", label := "Root" }]
    fields :=
      [{ id := "a" },
       { id := "t1", bind_id := .one "root", button := true },
       { id := "t2", bind_id := .one "root", button := true }]
    includes_for_buttons := some [("t1", ["a"])]
    excludes_for_buttons := some [("t2", ["a"])] }

theorem claim_C2_witness :
    foldDec [⟨1, .exc⟩, ⟨0, .inc⟩] = foldDec [⟨0, .inc⟩, ⟨1, .exc⟩] ∧
    (∃ r, foldDec [⟨0, .inc⟩, ⟨1, .exc⟩] = some r ∧
      r ∈ [⟨0, .inc⟩, ⟨1, .exc⟩] ∧
      (∀ e ∈ ([⟨0, .inc⟩, ⟨1, .exc⟩] : List BDec), r.depth ≤ e.depth) ∧
      (r.kind = DKind.exc ↔
        ∃ e ∈ ([⟨0, .inc⟩, ⟨1, .exc⟩] : List BDec),
          e.depth = r.depth ∧ e.kind = DKind.exc)) ∧
    foldDec [⟨5, .inc⟩, ⟨5, .exc⟩] = some ⟨5, .exc⟩ ∧
    ¬ "a" ∈ visibleFieldIdsUnder pC2 "root" ["t1", "t2"] := by
  refine ⟨?_, ?_, ?_, ?_⟩
  · exact claim_C2_decision_precedence.1 _ _ (by decide)
  · exact claim_C2_decision_precedence.2.1 _ (by decide)
  · exact (claim_C2_decision_precedence.2.2.1 5).1
  · exact claim_C2_decision_precedence.2.2.2 pC2 "root"
      { id := "root", label := "Root" } ["t1", "t2"] "a" (by decide) (by decide)

theorem claim_C9_witness :
    ("a" ∈ visibleFieldIdsUnder pC9 "root" ["t1", "t2"]) ∧
    ("a" ∈ visibleFieldIdsUnder pC9 "root" ["t2", "t1"]) := by
  have h := claim_C9_selection_membership pC9 "root" ["t1", "t2"] ["t2", "t1"]
    (by decide) (by decide)
    (by
      intro k
      constructor <;> intro hk <;> simp at hk <;> rcases hk with rfl | rfl <;> simp)
    "a"
  refine ⟨by decide, h.1 (by decide)⟩

/-! ## Validation findings and option-map validation
(src/core/validate/steps/option-maps.ts) -/

structure ErrDetails where
  tagId : Option String := none
  other : Option String := none
  label : Option String := none
  key : Option String := none
  markers : List String := []
  utilityOptionIds : List String := []
  affectedIds : List String := []
deriving DecidableEq, Repr

structure VError where
  code : String
  severity : String
  message : String
  nodeId : Option String := none
  details : ErrDetails := {}
deriving DecidableEq, Repr

/-- Source `withAffected`: attach the affected ids when more than one. -/
def withAffected (de : ErrDetails) (ids : Option (List String)) : ErrDetails :=
  match ids with
  | none => de
  | some l => if l.length ≤ 1 then de else { de with affectedIds := l }

/-- Source `parseFieldOptionKey`: legacy `fieldId::optionId` keys. -/
def parseFieldOptionKey (key : String) : Option (String × String) :=
  match splitTrigger key with
  | none => none
  | some (f, o) =>
    let fieldId := jsTrim f
    let optionId := jsTrim o
    if fieldId = "" ∨ optionId = "" then none else some (fieldId, optionId)

/-- Source `hasOption` via the validator's last-wins `fieldById` map. -/
def hasOption (fieldById : String → Option Field) (fid oid : String) : Bool :=
  match fieldById fid with
  | none => false
  | some f => f.options.any (fun o => o.id = oid)

structure TKResult where
  ok : Bool
  nodeId : Option String := none
  affected : Option (List String) := none
deriving DecidableEq, Repr

/-- Source `validateTriggerKey`: node-map lookup first (option ok,
button field ok, tag invalid), composite fallback only for unregistered
keys. -/
def validateTriggerKey (nm : NodeMap) (fieldById : String → Option Field)
    (key : String) : TKResult :=
  match alookup nm key with
  | some (.option o fieldId) => ⟨true, some fieldId, some [fieldId, o.id]⟩
  | some (.field f) =>
    if f.button = true then ⟨true, some f.id, some [f.id]⟩
    else ⟨false, some f.id, some [f.id]⟩
  | some (.tag t) => ⟨false, some t.id, some [t.id]⟩
  | none =>
    match parseFieldOptionKey key with
    | none => ⟨false, none, none⟩
    | some (fid, oid) =>
      if hasOption fieldById fid oid then ⟨true, some fid, some [fid, oid]⟩
      else ⟨false, some fid, some [fid, oid]⟩

def badKeyMessage (key : String) : String :=
  "Invalid trigger-map key \"" ++ key ++
    "\". Expected a known node id (option or button-field), or \"fieldId::optionId\" pointing to an existing option."

def mkBadKeyError (key : String) (r : TKResult) : VError :=
  { code := "bad_option_key", severity := "error", message := badKeyMessage key
    nodeId := r.nodeId, details := withAffected { key := some key } r.affected }

def mkConflictError (key : String) (r : TKResult) : VError :=
  { code := "option_include_exclude_conflict", severity := "error"
    message := "Trigger-map key \"" ++ key ++
      "\" appears in both includes_for_buttons and excludes_for_buttons."
    nodeId := r.nodeId, details := withAffected { key := some key } r.affected }

/-- Source `validateOptionMaps`: flag every unresolvable key of either
trigger map, then every key present in both maps.  The node map and the
last-wins `fieldById` map are built exactly as `validate()` builds the
shared context. -/
def validateOptionMaps (props : ServiceProps) : List VError :=
  let nm := buildNodeMap props
  let fieldById := fieldByIdLast props.fields
  let incM := props.includes_for_buttons.getD []
  let excM := props.excludes_for_buttons.getD []
  let badsInc := (incM.map Prod.fst).filterMap (fun k =>
    let r := validateTriggerKey nm fieldById k
    if r.ok then none else some (mkBadKeyError k r))
  let badsExc := (excM.map Prod.fst).filterMap (fun k =>
    let r := validateTriggerKey nm fieldById k
    if r.ok then none else some (mkBadKeyError k r))
  let conflicts := (incM.map Prod.fst).filterMap (fun k =>
    if (alookup excM k).isSome then
      some (mkConflictError k (validateTriggerKey nm fieldById k))
    else none)
  badsInc ++ badsExc ++ conflicts

/-! Spec-side predicates for C6, written from the claim's words. -/

def isExistingOptionId (props : ServiceProps) (key : String) : Bool :=
  props.fields.any (fun f => f.options.any (fun o => o.id = key))

def isButtonFieldId (props : ServiceProps) (key : String) : Bool :=
  props.fields.any (fun f => f.id = key && f.button)

def compositeNamesExistingOption (props : ServiceProps) (key : String) : Bool :=
  match parseFieldOptionKey key with
  | none => false
  | some (fid, oid) => hasOption (fieldByIdLast props.fields) fid oid

/-- The claim's literal validity predicate. -/
def claimC6Valid (props : ServiceProps) (key : String) : Bool :=
  isExistingOptionId props key || isButtonFieldId props key ||
    compositeNamesExistingOption props key

/-- The amended validity predicate: registry resolution takes precedence,
and the composite reading applies only to unregistered keys. -/
def amendedValidKey (props : ServiceProps) (key : String) : Bool :=
  match alookup (buildNodeMap props) key with
  | some (.option _ _) => true
  | some (.field f) => f.button
  | some (.tag _) => false
  | none => compositeNamesExistingOption props key

theorem validateTriggerKey_ok (props : ServiceProps) (key : String) :
    (validateTriggerKey (buildNodeMap props) (fieldByIdLast props.fields) key).ok =
      amendedValidKey props key := by
  unfold validateTriggerKey amendedValidKey compositeNamesExistingOption
  rcases alookup (buildNodeMap props) key with _ | ref
  · rcases hp : parseFieldOptionKey key with _ | pr
    · rfl
    · obtain ⟨fid, oid⟩ := pr
      by_cases hopt : hasOption (fieldByIdLast props.fields) fid oid
      · simp [hopt]
      · simp [hopt]
  · rcases ref with t | f | ⟨o, fieldId⟩
    · rfl
    · by_cases hb : f.button = true
      · simp [hb]
      · simp [hb]
    · rfl

theorem alookup_addIfAbsent (m : NodeMap) (k2 : String) (v2 : NodeRef) (k : String) :
    alookup (addIfAbsent m k2 v2) k =
      match alookup m k with
      | some v => some v
      | none => if k2 = k then some v2 else none := by
  unfold addIfAbsent
  by_cases hs : (alookup m k2).isSome
  · rw [if_pos hs]
    rcases hm : alookup m k with _ | v
    · have hk : ¬ k2 = k := by
        intro h2
        subst h2
        rw [hm] at hs
        cases hs
      simp [hm, hk]
    · simp [hm]
  · rw [if_neg hs]
    rw [alookup_append]
    rcases hm : alookup m k with _ | v
    · simp [hm, alookup_cons, alookup_nil]
    · simp [hm]

theorem optFold_preserve (fid : String) :
    ∀ (opts : List FieldOption) (m : NodeMap) (k : String) (v : NodeRef),
      alookup m k = some v →
      alookup (opts.foldl (fun m2 o => addIfAbsent m2 o.id (.option o fid)) m) k =
        some v := by
  intro opts
  induction opts with
  | nil => intro m k v h; exact h
  | cons o opts ih =>
    intro m k v h
    rw [List.foldl_cons]
    refine ih _ _ _ ?_
    rw [alookup_addIfAbsent, h]

theorem fieldFold_preserve :
    ∀ (fields : List Field) (m : NodeMap) (k : String) (v : NodeRef),
      alookup m k = some v →
      alookup
        (fields.foldl
          (fun m f =>
            f.options.foldl (fun m2 o => addIfAbsent m2 o.id (.option o f.id))
              (addIfAbsent m f.id (.field f)))
          m) k = some v := by
  intro fields
  induction fields with
  | nil => intro m k v h; exact h
  | cons f fields ih =>
    intro m k v h
    rw [List.foldl_cons]
    refine ih _ _ _ ?_
    refine optFold_preserve _ _ _ _ _ ?_
    rw [alookup_addIfAbsent, h]

theorem tagFold_isTag :
    ∀ (tags : List Tag) (m : NodeMap) (k : String),
      (∀ v, alookup m k = some v → ∃ t2, v = NodeRef.tag t2) →
      ((∃ t ∈ tags, t.id = k) ∨ (alookup m k).isSome) →
      ∃ t2, alookup (tags.foldl (fun m t => addIfAbsent m t.id (.tag t)) m) k =
        some (NodeRef.tag t2) := by
  intro tags
  induction tags with
  | nil =>
    intro m k hinv hdisj
    rcases hdisj with ⟨t, ht, _⟩ | hs
    · cases ht
    · rcases hm : alookup m k with _ | v
      · rw [hm] at hs; cases hs
      · rcases hinv v hm with ⟨t2, rfl⟩
        exact ⟨t2, hm⟩
  | cons t tags ih =>
    intro m k hinv hdisj
    rw [List.foldl_cons]
    refine ih _ _ ?_ ?_
    · intro v hv
      rw [alookup_addIfAbsent] at hv
      rcases hm : alookup m k with _ | v0
      · rw [hm] at hv
        simp only [] at hv
        by_cases hk : t.id = k
        · rw [if_pos hk] at hv
          exact ⟨t, (Option.some_inj.1 hv).symm⟩
        · rw [if_neg hk] at hv
          cases hv
      · rw [hm] at hv
        simp only [] at hv
        cases hv
        exact hinv _ hm
    · rcases hdisj with ⟨t3, ht3, hid⟩ | hs
      · rcases List.mem_cons.1 ht3 with rfl | ht4
        · right
          rw [alookup_addIfAbsent]
          rcases hm : alookup m k with _ | v0
          · simp [hid]
          · simp
        · exact Or.inl ⟨t3, ht4, hid⟩
      · right
        rw [alookup_addIfAbsent]
        rcases hm : alookup m k with _ | v0
        · rw [hm] at hs; cases hs
        · simp

/-- Any tag id resolves in the node registry to a tag reference (tags are
registered first and first registration wins). -/
theorem buildNodeMap_tag_of_mem (props : ServiceProps) (k : String)
    (h : ∃ t ∈ props.filters, t.id = k) :
    ∃ t2, alookup (buildNodeMap props) k = some (NodeRef.tag t2) := by
  unfold buildNodeMap
  rcases tagFold_isTag props.filters [] k (by intro v hv; cases hv) (Or.inl h)
    with ⟨t2, ht2⟩
  exact ⟨t2, fieldFold_preserve props.fields _ k _ ht2⟩

theorem mkBadKeyError_facts (key : String) (r : TKResult) :
    (mkBadKeyError key r).code = "bad_option_key" ∧
      (mkBadKeyError key r).details.key = some key := by
  unfold mkBadKeyError withAffected
  rcases r.affected with _ | l
  · exact ⟨rfl, rfl⟩
  · by_cases hl : l.length ≤ 1
    · simp [hl]
    · simp [hl]

theorem mkConflictError_facts (key : String) (r : TKResult) :
    (mkConflictError key r).code = "option_include_exclude_conflict" ∧
      (mkConflictError key r).details.key = some key := by
  unfold mkConflictError withAffected
  rcases r.affected with _ | l
  · exact ⟨rfl, rfl⟩
  · by_cases hl : l.length ≤ 1
    · simp [hl]
    · simp [hl]

/-- C6 amended: a `bad_option_key` finding is produced for exactly the
trigger-map keys that fail to resolve through the registry — a registered
key resolves only as its registered node (option valid; button-field
valid; tag or non-button field invalid) and the composite
`fieldId::optionId` reading applies only to unregistered keys; every key
that is a tag id is invalid; every key present in both maps yields an
`option_include_exclude_conflict` finding.  The validator is a total
function returning findings — no input makes it throw. -/
theorem claim_C6_trigger_key_validation (props : ServiceProps) (k : String) :
    ((∃ e ∈ validateOptionMaps props, e.code = "bad_option_key" ∧
        e.details.key = some k) ↔
      ((k ∈ (props.includes_for_buttons.getD []).map Prod.fst ∨
        k ∈ (props.excludes_for_buttons.getD []).map Prod.fst) ∧
        amendedValidKey props k = false)) ∧
    ((∃ e ∈ validateOptionMaps props, e.code = "option_include_exclude_conflict" ∧
        e.details.key = some k) ↔
      (k ∈ (props.includes_for_buttons.getD []).map Prod.fst ∧
        k ∈ (props.excludes_for_buttons.getD []).map Prod.fst)) ∧
    ((∃ t ∈ props.filters, t.id = k) → amendedValidKey props k = false) := by
  have hkeyfun : ∀ k2,
      (validateTriggerKey (buildNodeMap props) (fieldByIdLast props.fields) k2).ok =
        amendedValidKey props k2 := validateTriggerKey_ok props
  refine ⟨?_, ?_, ?_⟩
  · constructor
    · rintro ⟨e, hmem, hcode, hkey⟩
      unfold validateOptionMaps at hmem
      rw [List.mem_append, List.mem_append] at hmem
      rcases hmem with (hin | hin) | hin
      · rcases List.mem_filterMap.1 hin with ⟨k2, hk2, hf⟩
        by_cases hok : (validateTriggerKey (buildNodeMap props)
            (fieldByIdLast props.fields) k2).ok
        · rw [if_pos hok] at hf; cases hf
        · rw [if_neg hok] at hf
          have he := Option.some_inj.1 hf
          rcases mkBadKeyError_facts k2 (validateTriggerKey (buildNodeMap props)
            (fieldByIdLast props.fields) k2) with ⟨_, hkf⟩
          rw [← he] at hkey
          rw [hkf] at hkey
          have hk2k : k2 = k := Option.some_inj.1 hkey
          subst hk2k
          refine ⟨Or.inl hk2, ?_⟩
          rw [← hkeyfun k2]
          cases hv : (validateTriggerKey (buildNodeMap props)
              (fieldByIdLast props.fields) k2).ok
          · rfl
          · exact absurd hv hok
      · rcases List.mem_filterMap.1 hin with ⟨k2, hk2, hf⟩
        by_cases hok : (validateTriggerKey (buildNodeMap props)
            (fieldByIdLast props.fields) k2).ok
        · rw [if_pos hok] at hf; cases hf
        · rw [if_neg hok] at hf
          have he := Option.some_inj.1 hf
          rcases mkBadKeyError_facts k2 (validateTriggerKey (buildNodeMap props)
            (fieldByIdLast props.fields) k2) with ⟨_, hkf⟩
          rw [← he] at hkey
          rw [hkf] at hkey
          have hk2k : k2 = k := Option.some_inj.1 hkey
          subst hk2k
          refine ⟨Or.inr hk2, ?_⟩
          rw [← hkeyfun k2]
          cases hv : (validateTriggerKey (buildNodeMap props)
              (fieldByIdLast props.fields) k2).ok
          · rfl
          · exact absurd hv hok
      · rcases List.mem_filterMap.1 hin with ⟨k2, hk2, hf⟩
        by_cases hex : (alookup (props.excludes_for_buttons.getD []) k2).isSome
        · rw [if_pos hex] at hf
          have he := Option.some_inj.1 hf
          rcases mkConflictError_facts k2 (validateTriggerKey (buildNodeMap props)
            (fieldByIdLast props.fields) k2) with ⟨hcf, _⟩
          rw [← he] at hcode
          rw [hcf] at hcode
          exact absurd hcode (by decide)
        · rw [if_neg hex] at hf; cases hf
    · rintro ⟨hmem, hbad⟩
      have hok : (validateTriggerKey (buildNodeMap props)
          (fieldByIdLast props.fields) k).ok = false := by
        rw [hkeyfun k]; exact hbad
      rcases hmem with hmem | hmem
      · refine ⟨mkBadKeyError k (validateTriggerKey (buildNodeMap props)
          (fieldByIdLast props.fields) k), ?_, (mkBadKeyError_facts _ _).1,
          (mkBadKeyError_facts _ _).2⟩
        unfold validateOptionMaps
        rw [List.mem_append, List.mem_append]
        refine Or.inl (Or.inl (List.mem_filterMap.2 ⟨k, hmem, ?_⟩))
        simp [hok]
      · refine ⟨mkBadKeyError k (validateTriggerKey (buildNodeMap props)
          (fieldByIdLast props.fields) k), ?_, (mkBadKeyError_facts _ _).1,
          (mkBadKeyError_facts _ _).2⟩
        unfold validateOptionMaps
        rw [List.mem_append, List.mem_append]
        refine Or.inl (Or.inr (List.mem_filterMap.2 ⟨k, hmem, ?_⟩))
        simp [hok]
  · constructor
    · rintro ⟨e, hmem, hcode, hkey⟩
      unfold validateOptionMaps at hmem
      rw [List.mem_append, List.mem_append] at hmem
      rcases hmem with (hin | hin) | hin
      · rcases List.mem_filterMap.1 hin with ⟨k2, hk2, hf⟩
        by_cases hok : (validateTriggerKey (buildNodeMap props)
            (fieldByIdLast props.fields) k2).ok
        · rw [if_pos hok] at hf; cases hf
        · rw [if_neg hok] at hf
          have he := Option.some_inj.1 hf
          rcases mkBadKeyError_facts k2 (validateTriggerKey (buildNodeMap props)
            (fieldByIdLast props.fields) k2) with ⟨hcf, _⟩
          rw [← he] at hcode
          rw [hcf] at hcode
          exact absurd hcode (by decide)
      · rcases List.mem_filterMap.1 hin with ⟨k2, hk2, hf⟩
        by_cases hok : (validateTriggerKey (buildNodeMap props)
            (fieldByIdLast props.fields) k2).ok
        · rw [if_pos hok] at hf; cases hf
        · rw [if_neg hok] at hf
          have he := Option.some_inj.1 hf
          rcases mkBadKeyError_facts k2 (validateTriggerKey (buildNodeMap props)
            (fieldByIdLast props.fields) k2) with ⟨hcf, _⟩
          rw [← he] at hcode
          rw [hcf] at hcode
          exact absurd hcode (by decide)
      · rcases List.mem_filterMap.1 hin with ⟨k2, hk2, hf⟩
        by_cases hex : (alookup (props.excludes_for_buttons.getD []) k2).isSome
        · rw [if_pos hex] at hf
          have he := Option.some_inj.1 hf
          rcases mkConflictError_facts k2 (validateTriggerKey (buildNodeMap props)
            (fieldByIdLast props.fields) k2) with ⟨_, hkf⟩
          rw [← he] at hkey
          rw [hkf] at hkey
          have hk2k : k2 = k := Option.some_inj.1 hkey
          subst hk2k
          exact ⟨hk2, (alookup_isSome_iff _ _).1 hex⟩
        · rw [if_neg hex] at hf; cases hf
    · rintro ⟨hinc, hexc⟩
      refine ⟨mkConflictError k (validateTriggerKey (buildNodeMap props)
        (fieldByIdLast props.fields) k), ?_, (mkConflictError_facts _ _).1,
        (mkConflictError_facts _ _).2⟩
      unfold validateOptionMaps
      rw [List.mem_append, List.mem_append]
      refine Or.inr (List.mem_filterMap.2 ⟨k, hinc, ?_⟩)
      rw [if_pos ((alookup_isSome_iff _ _).2 hexc)]
  · intro htag
    rcases buildNodeMap_tag_of_mem props k htag with ⟨t2, ht2⟩
    unfold amendedValidKey
    rw [ht2]

/-- Concrete document for the C6 counterexample: a tag whose id
`"f::o"` contains the composite separator, while field `f` does hold an
option `o`. -/
def pC6 : ServiceProps :=
  { filters :=
      [{ id := "root", label := "Root" },
       { id := "f::o", label := "Odd" }]
    fields := [{ id := "f", options := [{ id := "o", label := "O" }] }]
    includes_for_buttons := some [("f::o", ["x"])] }

/-- C6 as stated is false: the key `"f::o"` is a composite naming an
existing option, so by the claim it must not be reported; the code
resolves it through the registry as a tag and reports it. -/
theorem claim_C6_counterexample :
    claimC6Valid pC6 "f::o" = true ∧
    ∃ e ∈ validateOptionMaps pC6, e.code = "bad_option_key" ∧
      e.details.key = some "f::o" := by
  constructor
  · decide
  · refine ⟨mkBadKeyError "f::o" (validateTriggerKey (buildNodeMap pC6)
      (fieldByIdLast pC6.fields) "f::o"), ?_, ?_, ?_⟩
    · decide
    · decide
    · decide

theorem claim_C6_witness :
    (∃ e ∈ validateOptionMaps pC6, e.code = "bad_option_key" ∧
      e.details.key = some "f::o") ∧
    amendedValidKey pC6 "f::o" = false := by
  have h := claim_C6_trigger_key_validation pC6 "f::o"
  have hamend : amendedValidKey pC6 "f::o" = false :=
    h.2.2 ⟨{ id := "f::o", label := "Odd" }, by decide, rfl⟩
  exact ⟨(h.1).2 ⟨Or.inl (by decide), hamend⟩, hamend⟩

/-! ## Normalisation (src/core/normalise.ts): constraint propagation -/

structure FlagInfo where
  val : Bool
  origin : String
deriving DecidableEq, Repr

/-- Inherited effective values threaded down the tag tree. -/
abbrev Inherited := FlagMap FlagInfo

/-- Local declarations: `tag.constraints ?? {}`. -/
def localConstraints (t : Tag) (k : Flag) : Option Bool :=
  (t.constraints.getD {}).get k

/-- Per-flag body of the `for (const k of FLAG_KEYS)` loop: effective
value, origin, and override record. -/
def stepFlag (tag : Tag) (inh : Inherited) (k : Flag) :
    Option Bool × Option String × Option OverrideRec :=
  match inh.get k, localConstraints tag k with
  | some i, none => (some i.val, some i.origin, none)
  | some i, some p =>
    if p = i.val then (some i.val, some tag.id, none)
    else (some i.val, some i.origin, some ⟨p, i.val, i.origin⟩)
  | none, some p => (some p, some tag.id, none)
  | none, none => (none, none, none)

structure TagPatch where
  constraints : Option (FlagMap Bool)
  origin : Option (FlagMap String)
  overrides : Option (FlagMap OverrideRec)
deriving DecidableEq, Repr

/-- What `visit` writes back onto the tag (only defined keys are kept;
an empty record becomes `undefined`). -/
def visitPatch (tag : Tag) (inh : Inherited) : TagPatch :=
  let c := FlagMap.build (fun k => (stepFlag tag inh k).1)
  let o := FlagMap.build (fun k => (stepFlag tag inh k).2.1)
  let ov := FlagMap.build (fun k => (stepFlag tag inh k).2.2)
  ⟨if c.isEmpty then none else some c,
   if o.isEmpty then none else some o,
   if ov.isEmpty then none else some ov⟩

/-- What the children inherit: the spread of `inherited` overridden by
the tag's effective value and origin where defined. -/
def passDown (tag : Tag) (inh : Inherited) : Inherited :=
  FlagMap.build (fun k =>
    match (stepFlag tag inh k).1, (stepFlag tag inh k).2.1 with
    | some v, some o => some ⟨v, o⟩
    | _, _ => inh.get k)

def applyPatch (t : Tag) (pa : TagPatch) : Tag :=
  { t with
    constraints := pa.constraints
    constraints_origin := pa.origin
    constraints_overrides := pa.overrides }

structure VState where
  visited : List String
  out : List (String × TagPatch)
deriving Repr

/-- Children map entry: a tag whose `bind_id` is a non-empty id of an
existing tag (`if (!pid || !byId.has(pid)) continue`). -/
def childrenOf (tags : List Tag) (pid : String) : List Tag :=
  tags.filter (fun t =>
    match t.bind_id with
    | some b =>
      if b = "" then false
      else if b = pid then tags.any (fun t2 => t2.id = b) else false
    | none => false)

/-- Depth-first `visit` with a visited guard; fuel `tags.length` is
enough: every recursion level marks a fresh tag visited, and once all
tags are visited a zero-fuel call and a guard hit both return the state
unchanged. -/
def visit (tags : List Tag) : Nat → Tag → Inherited → VState → VState
  | 0, _, _, st => st
  | fuel + 1, tag, inh, st =>
    if tag.id ∈ st.visited then st
    else
      let pa := visitPatch tag inh
      let st1 : VState := ⟨st.visited ++ [tag.id], st.out ++ [(tag.id, pa)]⟩
      (childrenOf tags tag.id).foldl
        (fun s c => visit tags fuel c (passDown tag inh) s) st1

/-- Roots of the forest: tags with no bind, an empty bind, or a bind that
names no existing tag (`byId.has` fails). -/
def rootsOf (tags : List Tag) : List Tag :=
  tags.filter (fun t =>
    match t.bind_id with
    | none => true
    | some b => if b = "" then true else ¬ tags.any (fun t2 => t2.id = b))

/-- Source `propagateConstraints`: pre-order walk from every root (all
tags if a cycle leaves no roots), writing effective values, origins and
overrides back onto the tags. -/
def propagateConstraints (p : ServiceProps) : ServiceProps :=
  let tags := p.filters
  if tags.isEmpty then p
  else
    let starts := if (rootsOf tags).isEmpty then tags else rootsOf tags
    let res := starts.foldl
      (fun st r => visit tags tags.length r {} st) ⟨[], []⟩
    { p with
      filters := tags.map (fun t =>
        match alookup res.out t.id with
        | some pa => applyPatch t pa
        | none => t) }

/-! Spec-side notions for C1: ancestor chains over raw declarations. -/

/-- Parent resolution matching the propagation walk's children map. -/
def parentTag (tags : List Tag) (t : Tag) : Option Tag :=
  match t.bind_id with
  | some b => if b = "" then none else tags.find? (fun t2 => t2.id = b)
  | none => none

/-- Iterated parent: `parentIter n t` is the `n`-th ancestor of `t`. -/
def parentIter (tags : List Tag) : Nat → Tag → Option Tag
  | 0, t => some t
  | n + 1, t => (parentIter tags n t).bind (fun u => parentTag tags u)

/-- Value declared at the farthest (root-most) ancestor, inclusive of the
tag itself, that declares the flag; unset when no lineage tag declares it. -/
def farthestDecl (tags : List Tag) : Nat → Tag → Flag → Option Bool
  | 0, t, k => localConstraints t k
  | fuel + 1, t, k =>
    match parentTag tags t with
    | some pt =>
      (farthestDecl tags fuel pt k).orElse (fun _ => localConstraints t k)
    | none => localConstraints t k

/-- Value declared at the nearest ancestor (inclusive of the tag itself)
that declares the flag — the claim's literal reading. -/
def nearestDecl (tags : List Tag) : Nat → Tag → Flag → Option Bool
  | 0, t, k => localConstraints t k
  | fuel + 1, t, k =>
    match localConstraints t k with
    | some v => some v
    | none =>
      match parentTag tags t with
      | some pt => nearestDecl tags fuel pt k
      | none => none

/-- Effective value of a flag after propagation (the written-back
`constraints` of the tag with the given id). -/
def effectiveOf (p : ServiceProps) (tid : String) (k : Flag) : Option Bool :=
  match (propagateConstraints p).filters.find? (fun t => t.id = tid) with
  | some t => localConstraints t k
  | none => none

/-- Depth certificate: a witness that the tag forest is acyclic, assigning
each tag its distance from its root. -/
def depCertB (p : ServiceProps) (dep : String → Nat) : Bool :=
  p.filters.all (fun t =>
    match parentTag p.filters t with
    | some pt => dep t.id == dep pt.id + 1
    | none => dep t.id == 0)

/-- Concrete document for the C1 counterexample: `root` declares
`refill = true`, its child `c` declares `refill = false`. -/
def pC1 : ServiceProps :=
  { filters :=
      [{ id := "root", label := "R", constraints := some { refill := some true } },
       { id := "c", label := "C", bind_id := some "root",
         constraints := some { refill := some false } }] }

def tagC1child : Tag :=
  { id := "c", label := "C", bind_id := some "root",
    constraints := some { refill := some false } }

/-- C1 as stated is false: the nearest declaring ancestor of `c`
(inclusive) is `c` itself with declared value `false`, but propagation
lets the ancestor win, making the effective value `true`. -/
theorem claim_C1_counterexample :
    nearestDecl pC1.filters pC1.filters.length tagC1child Flag.refill = some false ∧
    effectiveOf pC1 "c" Flag.refill = some true ∧
    effectiveOf pC1 "c" Flag.refill ≠
      nearestDecl pC1.filters pC1.filters.length tagC1child Flag.refill := by
  refine ⟨by decide, by decide, by decide⟩

/-! Structural facts about the tag forest under unique ids and a depth
certificate. -/

/-- Ancestry relation: `T` is an ancestor of `D` (inclusive). -/
def Desc (tags : List Tag) (T D : Tag) : Prop :=
  ∃ n, parentIter tags n D = some T

theorem desc_refl (tags : List Tag) (t : Tag) : Desc tags t t := ⟨0, rfl⟩

theorem tagId_inj {tags : List Tag} (hnd : (tags.map Tag.id).Nodup) :
    ∀ a b, a ∈ tags → b ∈ tags → a.id = b.id → a = b := by
  induction tags with
  | nil => intro a b ha; cases ha
  | cons t tags ih =>
    intro a b ha hb hab
    rw [List.map_cons, List.nodup_cons] at hnd
    rcases List.mem_cons.1 ha with rfl | ha2
    · rcases List.mem_cons.1 hb with rfl | hb2
      · rfl
      · exact absurd (List.mem_map.2 ⟨b, hb2, hab.symm⟩) hnd.1
    · rcases List.mem_cons.1 hb with rfl | hb2
      · exact absurd (List.mem_map.2 ⟨a, ha2, hab⟩) hnd.1
      · exact ih hnd.2 a b ha2 hb2 hab

theorem find_self {tags : List Tag} (hnd : (tags.map Tag.id).Nodup)
    {t : Tag} (ht : t ∈ tags) : tags.find? (fun t2 => t2.id = t.id) = some t := by
  rcases hf : tags.find? (fun t2 => t2.id = t.id) with _ | u
  · exfalso
    have := List.find?_eq_none.1 hf t ht
    simp at this
  · have hu := List.find?_some hf
    have humem := List.mem_of_find?_eq_some hf
    simp only [decide_eq_true_eq] at hu
    rw [tagId_inj hnd u t humem ht hu] at hf
    exact hf

theorem parentTag_mem {tags : List Tag} {t pt : Tag}
    (h : parentTag tags t = some pt) :
    pt ∈ tags ∧ ∃ b, t.bind_id = some b ∧ ¬ b = "" ∧ pt.id = b := by
  unfold parentTag at h
  rcases hb : t.bind_id with _ | b
  · simp only [hb] at h; cases h
  · simp only [hb] at h
    by_cases he : b = ""
    · rw [if_pos he] at h; cases h
    · rw [if_neg he] at h
      have hmem := List.mem_of_find?_eq_some h
      have hid := List.find?_some h
      simp only [decide_eq_true_eq] at hid
      exact ⟨hmem, b, rfl, he, hid⟩

theorem mem_childrenOf {tags : List Tag} {pid : String} {c : Tag} :
    c ∈ childrenOf tags pid ↔
      c ∈ tags ∧ ∃ b, c.bind_id = some b ∧ ¬ b = "" ∧ b = pid ∧
        tags.any (fun t2 => t2.id = b) := by
  unfold childrenOf
  rw [List.mem_filter]
  constructor
  · rintro ⟨hm, hcond⟩
    refine ⟨hm, ?_⟩
    rcases hb : c.bind_id with _ | b
    · simp only [hb] at hcond; cases hcond
    · simp only [hb] at hcond
      by_cases he : b = ""
      · rw [if_pos he] at hcond; cases hcond
      · rw [if_neg he] at hcond
        by_cases hp : b = pid
        · rw [if_pos hp] at hcond
          exact ⟨b, rfl, he, hp, hcond⟩
        · rw [if_neg hp] at hcond; cases hcond
  · rintro ⟨hm, b, hb, he, hp, hany⟩
    refine ⟨hm, ?_⟩
    simp only [hb]
    rw [if_neg he, if_pos hp]
    exact hany

theorem children_parent {tags : List Tag} (hnd : (tags.map Tag.id).Nodup)
    {P C : Tag} (hP : P ∈ tags) :
    C ∈ childrenOf tags P.id ↔ C ∈ tags ∧ parentTag tags C = some P := by
  constructor
  · intro h
    rcases mem_childrenOf.1 h with ⟨hm, b, hb, he, hp, _⟩
    subst hp
    refine ⟨hm, ?_⟩
    unfold parentTag
    simp only [hb]
    rw [if_neg he]
    exact find_self hnd hP
  · rintro ⟨hm, hpar⟩
    rcases parentTag_mem hpar with ⟨hptm, b, hb, he, hid⟩
    refine mem_childrenOf.2 ⟨hm, b, hb, he, hid.symm, ?_⟩
    exact List.any_eq_true.2 ⟨P, hP, by simp [hid]⟩

/-- Depth-certificate facts as propositions. -/
def DepCert (tags : List Tag) (dep : String → Nat) : Prop :=
  ∀ t ∈ tags,
    (∀ pt, parentTag tags t = some pt → dep t.id = dep pt.id + 1) ∧
    (parentTag tags t = none → dep t.id = 0)

theorem depCertB_spec {p : ServiceProps} {dep : String → Nat}
    (h : depCertB p dep = true) : DepCert p.filters dep := by
  intro t ht
  unfold depCertB at h
  have h2 := List.all_eq_true.1 h t ht
  constructor
  · intro pt hpt
    rw [hpt] at h2
    simpa using h2
  · intro hn
    rw [hn] at h2
    simpa using h2

theorem parentIter_mem_dep {tags : List Tag} {dep : String → Nat}
    (hc : DepCert tags dep) :
    ∀ (n : Nat) (t u : Tag), t ∈ tags → parentIter tags n t = some u →
      u ∈ tags ∧ dep t.id = dep u.id + n := by
  intro n
  induction n with
  | zero =>
    intro t u ht h
    cases h
    exact ⟨ht, rfl⟩
  | succ n ih =>
    intro t u ht h
    unfold parentIter at h
    rcases hw : parentIter tags n t with _ | w
    · rw [hw] at h; cases h
    · rw [hw] at h
      have hu2 : parentTag tags w = some u := h
      rcases ih t w ht hw with ⟨hwm, hdep⟩
      rcases parentTag_mem hu2 with ⟨hum, _⟩
      have := (hc w hwm).1 u hu2
      exact ⟨hum, by omega⟩

theorem desc_via_child {tags : List Tag} (hnd : (tags.map Tag.id).Nodup)
    {T C D : Tag} (hT : T ∈ tags) (hC : C ∈ childrenOf tags T.id)
    (hD : Desc tags C D) : Desc tags T D := by
  rcases hD with ⟨n, hn⟩
  refine ⟨n + 1, ?_⟩
  unfold parentIter
  rw [hn]
  exact ((children_parent hnd hT).1 hC).2

theorem desc_decompose {tags : List Tag} (hnd : (tags.map Tag.id).Nodup)
    {dep : String → Nat} (hc : DepCert tags dep)
    {T D : Tag} (hT : T ∈ tags) (hD : D ∈ tags) (h : Desc tags T D) :
    D = T ∨ ∃ c ∈ childrenOf tags T.id, Desc tags c D := by
  rcases h with ⟨n, hn⟩
  match n, hn with
  | 0, hn => exact Or.inl (Option.some_inj.1 hn)
  | m + 1, hn =>
    unfold parentIter at hn
    rcases hw : parentIter tags m D with _ | c
    · rw [hw] at hn; cases hn
    · rw [hw] at hn
      have hpar : parentTag tags c = some T := hn
      have hcm : c ∈ tags := (parentIter_mem_dep hc m D c hD hw).1
      exact Or.inr ⟨c, (children_parent hnd hT).2 ⟨hcm, hpar⟩, ⟨m, hw⟩⟩

theorem child_dep {tags : List Tag} (hnd : (tags.map Tag.id).Nodup)
    {dep : String → Nat} (hc : DepCert tags dep)
    {P C : Tag} (hP : P ∈ tags) (hC : C ∈ childrenOf tags P.id) :
    dep C.id = dep P.id + 1 := by
  rcases (children_parent hnd hP).1 hC with ⟨hm, hpar⟩
  exact (hc C hm).1 P hpar

theorem sibling_subtrees_disjoint {tags : List Tag}
    (hnd : (tags.map Tag.id).Nodup) {dep : String → Nat}
    (hc : DepCert tags dep) {P c1 c2 D : Tag} (hP : P ∈ tags)
    (h1 : c1 ∈ childrenOf tags P.id) (h2 : c2 ∈ childrenOf tags P.id)
    (hD : D ∈ tags) (hd1 : Desc tags c1 D) (hd2 : Desc tags c2 D) :
    c1 = c2 := by
  rcases hd1 with ⟨n1, hn1⟩
  rcases hd2 with ⟨n2, hn2⟩
  have e1 := parentIter_mem_dep hc n1 D c1 hD hn1
  have e2 := parentIter_mem_dep hc n2 D c2 hD hn2
  have hc1 := child_dep hnd hc hP h1
  have hc2 := child_dep hnd hc hP h2
  have hn12 : n1 = n2 := by omega
  subst hn12
  rw [hn1] at hn2
  exact Option.some_inj.1 hn2

theorem subtree_no_parent {tags : List Tag} (hnd : (tags.map Tag.id).Nodup)
    {dep : String → Nat} (hc : DepCert tags dep)
    {T c : Tag} (hT : T ∈ tags) (hC : c ∈ childrenOf tags T.id) :
    ¬ Desc tags c T := by
  rintro ⟨n, hn⟩
  have e := parentIter_mem_dep hc n T c hT hn
  have := child_dep hnd hc hT hC
  omega

/-- Pigeonhole: depths are bounded by the number of tags. -/
theorem dep_lt_length {tags : List Tag} (_hnd : (tags.map Tag.id).Nodup)
    {dep : String → Nat} (hc : DepCert tags dep) :
    ∀ t ∈ tags, dep t.id < tags.length := by
  have key : ∀ (n : Nat) (t : Tag), t ∈ tags → dep t.id = n →
      ∃ L : List Tag, L.Nodup ∧ (∀ x ∈ L, x ∈ tags) ∧
        L.length = dep t.id + 1 ∧ (∀ x ∈ L, dep x.id ≤ dep t.id) := by
    intro n
    induction n with
    | zero =>
      intro t ht hd
      exact ⟨[t], List.nodup_singleton t, by simpa using ht, by simp [hd],
        by simp [hd]⟩
    | succ n ih =>
      intro t ht hd
      rcases hp : parentTag tags t with _ | pt
      · have := (hc t ht).2 hp
        omega
      · have hdp : dep t.id = dep pt.id + 1 := (hc t ht).1 pt hp
        have hptm : pt ∈ tags := (parentTag_mem hp).1
        have hdpn : dep pt.id = n := by omega
        rcases ih pt hptm hdpn with ⟨L, hLnd, hLm, hLl, hLd⟩
        refine ⟨t :: L, ?_, ?_, ?_, ?_⟩
        · rw [List.nodup_cons]
          refine ⟨?_, hLnd⟩
          intro hmem
          have := hLd t hmem
          omega
        · intro x hx
          rcases List.mem_cons.1 hx with rfl | hx2
          · exact ht
          · exact hLm x hx2
        · simp [hLl, hd, hdpn, hdp]
        · intro x hx
          rcases List.mem_cons.1 hx with rfl | hx2
          · exact le_refl _
          · have := hLd x hx2
            omega
  intro t ht
  rcases key (dep t.id) t ht rfl with ⟨L, hLnd, hLm, hLl, _⟩
  have hsub : L ⊆ tags := fun x hx => hLm x hx
  have := List.Subperm.length_le (List.subperm_of_subset hLnd hsub)
  omega

/-! Semantic layer for the propagation walk. -/

/-- Value that propagation should assign to a tag: the farthest-declared
value along its certified ancestor chain. -/
def effTheory (tags : List Tag) (dep : String → Nat) (T : Tag) (k : Flag) :
    Option Bool :=
  farthestDecl tags (dep T.id) T k

/-- Inherited map carried into a tag during the walk: its value component
is exactly the parent effective value. -/
def InhOK (tags : List Tag) (dep : String → Nat) (T : Tag)
    (inh : Inherited) : Prop :=
  ∀ k, (inh.get k).map FlagInfo.val =
    match parentTag tags T with
    | some P => effTheory tags dep P k
    | none => none

/-- Constraint value recorded in a patch (what `effectiveOf` reads back). -/
def patchVal (pa : TagPatch) (k : Flag) : Option Bool :=
  (pa.constraints.getD {}).get k

theorem flagMap_get_empty (k : Flag) : ({} : FlagMap α).get k = none := by
  cases k <;> rfl

theorem flagMap_get_of_isEmpty {m : FlagMap α} (h : m.isEmpty = true)
    (k : Flag) : m.get k = none := by
  unfold FlagMap.isEmpty at h
  rw [Bool.and_eq_true, Bool.and_eq_true] at h
  cases k
  · exact Option.isNone_iff_eq_none.1 h.1.1
  · exact Option.isNone_iff_eq_none.1 h.1.2
  · exact Option.isNone_iff_eq_none.1 h.2

theorem patchVal_visitPatch (T : Tag) (inh : Inherited) (k : Flag) :
    patchVal (visitPatch T inh) k = (stepFlag T inh k).1 := by
  have hcon : (visitPatch T inh).constraints =
      (if (FlagMap.build (fun k2 => (stepFlag T inh k2).1)).isEmpty = true
       then none
       else some (FlagMap.build (fun k2 => (stepFlag T inh k2).1))) := rfl
  unfold patchVal
  rw [hcon]
  by_cases h : (FlagMap.build (fun k2 => (stepFlag T inh k2).1)).isEmpty = true
  · rw [if_pos h, Option.getD_none]
    have h2 := flagMap_get_of_isEmpty h k
    rw [FlagMap.get_build] at h2
    rw [flagMap_get_empty]
    exact h2.symm
  · rw [Bool.not_eq_true] at h
    rw [h, if_neg (by decide), Option.getD_some]
    exact FlagMap.get_build _ k

theorem stepFlag_fst (T : Tag) (inh : Inherited) (k : Flag) :
    (stepFlag T inh k).1 =
      match inh.get k with
      | some i => some i.val
      | none => localConstraints T k := by
  unfold stepFlag
  rcases hi : inh.get k with _ | i <;>
      rcases hl : localConstraints T k with _ | p <;>
    simp only [hi, hl]
  by_cases h : p = i.val
  · rw [if_pos h]
  · rw [if_neg h]

theorem stepFlag_none_inh {T : Tag} {inh : Inherited} {k : Flag}
    (h : (stepFlag T inh k).1 = none) :
    inh.get k = none ∧ localConstraints T k = none := by
  rw [stepFlag_fst] at h
  rcases hi : inh.get k with _ | i
  · rw [hi] at h
    exact ⟨rfl, h⟩
  · rw [hi] at h
    cases h

theorem stepFlag_snd_of_fst {T : Tag} {inh : Inherited} {k : Flag} {v : Bool}
    (h : (stepFlag T inh k).1 = some v) :
    ∃ o, (stepFlag T inh k).2.1 = some o := by
  unfold stepFlag at h ⊢
  rcases hi : inh.get k with _ | i <;>
      rcases hl : localConstraints T k with _ | p <;>
    simp only [hi, hl] at h ⊢
  · exact Option.noConfusion h
  · exact ⟨T.id, rfl⟩
  · exact ⟨i.origin, rfl⟩
  · by_cases hpi : p = i.val
    · rw [if_pos hpi]
      exact ⟨T.id, rfl⟩
    · rw [if_neg hpi]
      exact ⟨i.origin, rfl⟩

theorem effTheory_parent {tags : List Tag} {dep : String → Nat}
    (hc : DepCert tags dep) {T : Tag} (hT : T ∈ tags) (k : Flag) :
    effTheory tags dep T k =
      (match parentTag tags T with
       | some P => effTheory tags dep P k
       | none => none).orElse (fun _ => localConstraints T k) := by
  rcases hp : parentTag tags T with _ | P
  · have h0 := (hc T hT).2 hp
    unfold effTheory
    rw [h0]
    simp [farthestDecl, Option.orElse]
  · have hd := (hc T hT).1 P hp
    unfold effTheory
    rw [hd]
    simp [farthestDecl, hp]

theorem effFlag_eq {tags : List Tag} {dep : String → Nat}
    (hc : DepCert tags dep) {T : Tag} (hT : T ∈ tags) {inh : Inherited}
    (hinh : InhOK tags dep T inh) (k : Flag) :
    (stepFlag T inh k).1 = effTheory tags dep T k := by
  rw [stepFlag_fst, effTheory_parent hc hT]
  have h := hinh k
  rcases hi : inh.get k with _ | i
  · rw [hi] at h
    simp only [Option.map_none'] at h
    rw [← h]
    simp [Option.orElse]
  · rw [hi] at h
    simp only [Option.map_some'] at h
    rw [← h]
    simp [Option.orElse]

theorem inhOK_child {tags : List Tag} {dep : String → Nat}
    (hnd : (tags.map Tag.id).Nodup) (hc : DepCert tags dep)
    {T C : Tag} (hT : T ∈ tags) (hC : C ∈ childrenOf tags T.id)
    {inh : Inherited} (hinh : InhOK tags dep T inh) :
    InhOK tags dep C (passDown T inh) := by
  intro k
  have hpar : parentTag tags C = some T := ((children_parent hnd hT).1 hC).2
  rw [hpar]
  unfold passDown
  rw [FlagMap.get_build]
  rcases h1 : (stepFlag T inh k).1 with _ | v
  · have hni := stepFlag_none_inh h1
    have heff := effFlag_eq hc hT hinh k
    rw [h1] at heff
    rcases h2 : (stepFlag T inh k).2.1 with _ | o
    · simp only [h1, h2]
      rw [hni.1, ← heff]
      rfl
    · simp only [h1, h2]
      rw [hni.1, ← heff]
      rfl
  · rcases stepFlag_snd_of_fst h1 with ⟨o, h2⟩
    simp only [h1, h2]
    have heff := effFlag_eq hc hT hinh k
    rw [h1] at heff
    rw [← heff]
    rfl

theorem farthestDecl_fuel {tags : List Tag} {dep : String → Nat}
    (hc : DepCert tags dep) :
    ∀ (n : Nat) (T : Tag) (k : Flag), T ∈ tags → dep T.id ≤ n →
      farthestDecl tags n T k = farthestDecl tags (dep T.id) T k := by
  intro n
  induction n with
  | zero =>
    intro T k hT hle
    have h0 : dep T.id = 0 := Nat.le_zero.1 hle
    rw [h0]
  | succ n ih =>
    intro T k hT hle
    rcases hp : parentTag tags T with _ | P
    · have h0 := (hc T hT).2 hp
      rw [h0]
      simp [farthestDecl, hp]
    · have hd := (hc T hT).1 P hp
      have hPm : P ∈ tags := (parentTag_mem hp).1
      have hPle : dep P.id ≤ n := by omega
      rw [hd]
      simp only [farthestDecl, hp]
      rw [ih P k hPm hPle]

theorem mem_rootsOf {tags : List Tag} {t : Tag} :
    t ∈ rootsOf tags ↔ t ∈ tags ∧ parentTag tags t = none := by
  unfold rootsOf
  rw [List.mem_filter]
  constructor
  · rintro ⟨hm, hcond⟩
    refine ⟨hm, ?_⟩
    unfold parentTag
    rcases hb : t.bind_id with _ | b
    · rfl
    · simp only [hb] at hcond ⊢
      by_cases he : b = ""
      · rw [if_pos he]
      · rw [if_neg he] at hcond ⊢
        rw [List.find?_eq_none]
        intro x hx
        simp only [decide_eq_true_eq] at hcond ⊢
        intro hid
        exact hcond (List.any_eq_true.2 ⟨x, hx, by simp [hid]⟩)
  · rintro ⟨hm, hpar⟩
    refine ⟨hm, ?_⟩
    unfold parentTag at hpar
    rcases hb : t.bind_id with _ | b
    · simp [hb]
    · simp only [hb] at hpar ⊢
      by_cases he : b = ""
      · rw [if_pos he]
      · rw [if_neg he] at hpar ⊢
        simp only [decide_eq_true_eq]
        intro hany
        rcases List.any_eq_true.1 hany with ⟨x, hx, hid⟩
        simp only [decide_eq_true_eq] at hid
        have := List.find?_eq_none.1 hpar x hx
        simp [hid] at this

theorem root_unique {tags : List Tag} {dep : String → Nat}
    (hc : DepCert tags dep) {r1 r2 D : Tag}
    (h1 : r1 ∈ tags) (h2 : r2 ∈ tags)
    (hp1 : parentTag tags r1 = none) (hp2 : parentTag tags r2 = none)
    (hD : D ∈ tags) (hd1 : Desc tags r1 D) (hd2 : Desc tags r2 D) :
    r1 = r2 := by
  rcases hd1 with ⟨n1, hn1⟩
  rcases hd2 with ⟨n2, hn2⟩
  have e1 := parentIter_mem_dep hc n1 D r1 hD hn1
  have e2 := parentIter_mem_dep hc n2 D r2 hD hn2
  have hr1 := (hc r1 h1).2 hp1
  have hr2 := (hc r2 h2).2 hp2
  have : n1 = n2 := by omega
  subst this
  rw [hn1] at hn2
  exact Option.some_inj.1 hn2

theorem parentIter_total {tags : List Tag} {dep : String → Nat}
    (hc : DepCert tags dep) {t : Tag} (ht : t ∈ tags) :
    ∀ i, i ≤ dep t.id → ∃ u, parentIter tags i t = some u := by
  intro i
  induction i with
  | zero => intro _; exact ⟨t, rfl⟩
  | succ i ih =>
    intro hle
    rcases ih (Nat.le_of_succ_le hle) with ⟨u, hu⟩
    have hum := parentIter_mem_dep hc i t u ht hu
    rcases hp : parentTag tags u with _ | pt
    · have := (hc u hum.1).2 hp
      omega
    · refine ⟨pt, ?_⟩
      unfold parentIter
      rw [hu]
      exact hp

/-! Invariants threaded through the walk. -/

/-- State invariant: patch ids mirror the visited list, visited ids are
unique, and every recorded patch carries the theoretical effective values
of the tag it belongs to. -/
def Inv (tags : List Tag) (dep : String → Nat) (st : VState) : Prop :=
  st.out.map Prod.fst = st.visited ∧ st.visited.Nodup ∧
  ∀ pr ∈ st.out, ∃ D, D ∈ tags ∧ pr.1 = D.id ∧
    ∀ k, patchVal pr.2 k = effTheory tags dep D k

/-- No tag of the subtree rooted at `T` has been visited yet. -/
def Fresh (tags : List Tag) (T : Tag) (st : VState) : Prop :=
  ∀ D ∈ tags, Desc tags T D → D.id ∉ st.visited

/-- Identifier of some tag in the subtree rooted at `T`. -/
def IsDescId (tags : List Tag) (T : Tag) (id : String) : Prop :=
  ∃ D, D ∈ tags ∧ Desc tags T D ∧ id = D.id

/-- Postcondition of one `visit` call. -/
def Conc (tags : List Tag) (dep : String → Nat) (T : Tag)
    (st st2 : VState) : Prop :=
  Inv tags dep st2 ∧
  (∃ d, st2.visited = st.visited ++ d ∧ ∀ id ∈ d, IsDescId tags T id) ∧
  (∀ D, D ∈ tags → Desc tags T D → D.id ∈ st2.visited)

/-- Fold of `visit` over a list of siblings, as performed by the walk. -/
def foldVisit (tags : List Tag) (fuel : Nat) (inh : Inherited)
    (cs : List Tag) (st : VState) : VState :=
  cs.foldl (fun s c => visit tags fuel c inh s) st

theorem visit_fold {tags : List Tag} {dep : String → Nat}
    (hnd : (tags.map Tag.id).Nodup) (fuel : Nat)
    (HV : ∀ C, C ∈ tags → ∀ inh st, tags.length ≤ fuel + dep C.id →
      InhOK tags dep C inh → Fresh tags C st → Inv tags dep st →
      Conc tags dep C st (visit tags fuel C inh st))
    (inh2 : Inherited) :
    ∀ cs : List Tag, cs.Nodup → (∀ c ∈ cs, c ∈ tags) →
      (∀ c ∈ cs, tags.length ≤ fuel + dep c.id) →
      (∀ c ∈ cs, InhOK tags dep c inh2) →
      (∀ c ∈ cs, ∀ c2 ∈ cs, ∀ D, D ∈ tags → Desc tags c D →
        Desc tags c2 D → c = c2) →
      ∀ st, Inv tags dep st → (∀ c ∈ cs, Fresh tags c st) →
      Inv tags dep (foldVisit tags fuel inh2 cs st) ∧
      (∃ d, (foldVisit tags fuel inh2 cs st).visited = st.visited ++ d ∧
        ∀ id ∈ d, ∃ c, c ∈ cs ∧ IsDescId tags c id) ∧
      (∀ c ∈ cs, ∀ D, D ∈ tags → Desc tags c D →
        D.id ∈ (foldVisit tags fuel inh2 cs st).visited) := by
  intro cs
  induction cs with
  | nil =>
    intro _ _ _ _ _ st hinv _
    refine ⟨hinv, ⟨[], by simp [foldVisit], by simp⟩, ?_⟩
    intro c hcmem
    exact absurd hcmem (List.not_mem_nil c)
  | cons c cs ih =>
    intro hnodup hmem hlen hinh hdisj st hinv hfresh
    have hcm : c ∈ tags := hmem c (List.mem_cons_self c cs)
    have hcnotin : c ∉ cs := (List.nodup_cons.1 hnodup).1
    have hconc := HV c hcm inh2 st (hlen c (List.mem_cons_self c cs))
      (hinh c (List.mem_cons_self c cs)) (hfresh c (List.mem_cons_self c cs))
      hinv
    rcases hconc with ⟨hinv1, ⟨d1, hd1eq, hd1desc⟩, hall1⟩
    have hfresh1 : ∀ c2 ∈ cs, Fresh tags c2 (visit tags fuel c inh2 st) := by
      intro c2 hc2 D hD hdesc hmem2
      rw [hd1eq] at hmem2
      rcases List.mem_append.1 hmem2 with hold | hnew
      · exact hfresh c2 (List.mem_cons_of_mem c hc2) D hD hdesc hold
      · rcases hd1desc _ hnew with ⟨D2, hD2m, hdesc2, heq⟩
        have hDD : D2 = D := tagId_inj hnd D2 D hD2m hD heq.symm
        subst hDD
        have := hdisj c (List.mem_cons_self c cs) c2
          (List.mem_cons_of_mem c hc2) D2 hD2m hdesc2 hdesc
        rw [this] at hcnotin
        exact hcnotin hc2
    have hrec := ih (List.nodup_cons.1 hnodup).2
      (fun c2 hc2 => hmem c2 (List.mem_cons_of_mem c hc2))
      (fun c2 hc2 => hlen c2 (List.mem_cons_of_mem c hc2))
      (fun c2 hc2 => hinh c2 (List.mem_cons_of_mem c hc2))
      (fun c2 hc2 c3 hc3 => hdisj c2 (List.mem_cons_of_mem c hc2) c3
        (List.mem_cons_of_mem c hc3))
      (visit tags fuel c inh2 st) hinv1 hfresh1
    rcases hrec with ⟨hinv2, ⟨d2, hd2eq, hd2desc⟩, hall2⟩
    have hstep : foldVisit tags fuel inh2 (c :: cs) st =
        foldVisit tags fuel inh2 cs (visit tags fuel c inh2 st) := rfl
    rw [hstep]
    refine ⟨hinv2, ⟨d1 ++ d2, ?_, ?_⟩, ?_⟩
    · rw [hd2eq, hd1eq, List.append_assoc]
    · intro id hid
      rcases List.mem_append.1 hid with h1 | h2
      · exact ⟨c, List.mem_cons_self c cs, hd1desc id h1⟩
      · rcases hd2desc id h2 with ⟨c2, hc2, hdid⟩
        exact ⟨c2, List.mem_cons_of_mem c hc2, hdid⟩
    · intro c2 hc2 D hD hdesc
      rcases List.mem_cons.1 hc2 with rfl | htail
      · rw [hd2eq]
        exact List.mem_append_left d2 (hall1 D hD hdesc)
      · exact hall2 c2 htail D hD hdesc

theorem visit_main {tags : List Tag} {dep : String → Nat}
    (hnd : (tags.map Tag.id).Nodup) (hc : DepCert tags dep) :
    ∀ (fuel : Nat) (T : Tag), T ∈ tags → ∀ inh st,
      tags.length ≤ fuel + dep T.id →
      InhOK tags dep T inh → Fresh tags T st → Inv tags dep st →
      Conc tags dep T st (visit tags fuel T inh st) := by
  intro fuel
  induction fuel with
  | zero =>
    intro T hT inh st hlen
    have := dep_lt_length hnd hc T hT
    omega
  | succ fuel ih =>
    intro T hT inh st hlen hinh hfresh hinv
    have hTnotin : T.id ∉ st.visited := hfresh T hT (desc_refl tags T)
    have hv : visit tags (fuel + 1) T inh st =
        foldVisit tags fuel (passDown T inh) (childrenOf tags T.id)
          ⟨st.visited ++ [T.id], st.out ++ [(T.id, visitPatch T inh)]⟩ := by
      simp [visit, hTnotin, foldVisit]
    rw [hv]
    have hinv1 : Inv tags dep
        ⟨st.visited ++ [T.id], st.out ++ [(T.id, visitPatch T inh)]⟩ := by
      rcases hinv with ⟨hov, hnodupv, hgood⟩
      refine ⟨by simp [hov], ?_, ?_⟩
      · rw [List.nodup_append]
        exact ⟨hnodupv, List.nodup_singleton _,
          fun a ha hb => by
            rw [List.mem_singleton] at hb
            subst hb
            exact hTnotin ha⟩
      · intro pr hpr
        rcases List.mem_append.1 hpr with hold | hnewm
        · exact hgood pr hold
        · rw [List.mem_singleton] at hnewm
          subst hnewm
          refine ⟨T, hT, rfl, fun k => ?_⟩
          rw [patchVal_visitPatch]
          exact effFlag_eq hc hT hinh k
    have hfresh1 : ∀ c ∈ childrenOf tags T.id, Fresh tags c
        ⟨st.visited ++ [T.id], st.out ++ [(T.id, visitPatch T inh)]⟩ := by
      intro c hcmem D hD hdesc hmemv
      rcases List.mem_append.1 hmemv with hold | hone
      · exact hfresh D hD (desc_via_child hnd hT hcmem hdesc) hold
      · rw [List.mem_singleton] at hone
        have hDT : D = T := tagId_inj hnd D T hD hT hone
        subst hDT
        exact subtree_no_parent hnd hc hT hcmem hdesc
    have hfold := visit_fold hnd fuel (fun C hC => ih C hC)
      (passDown T inh) (childrenOf tags T.id)
      ((List.Nodup.of_map _ hnd).filter _)
      (fun c hcmem => (mem_childrenOf.1 hcmem).1)
      (fun c hcmem => by
        have := child_dep hnd hc hT hcmem
        omega)
      (fun c hcmem => inhOK_child hnd hc hT hcmem hinh)
      (fun c hcmem c2 hc2mem D hD hd1 hd2 =>
        sibling_subtrees_disjoint hnd hc hT hcmem hc2mem hD hd1 hd2)
      ⟨st.visited ++ [T.id], st.out ++ [(T.id, visitPatch T inh)]⟩
      hinv1 hfresh1
    rcases hfold with ⟨hinv2, ⟨d, hdeq, hddesc⟩, hall⟩
    refine ⟨hinv2, ⟨[T.id] ++ d, ?_, ?_⟩, ?_⟩
    · rw [hdeq]
      simp
    · intro id hid
      rcases List.mem_append.1 hid with hone | hd2
      · rw [List.mem_singleton] at hone
        exact ⟨T, hT, desc_refl tags T, hone⟩
      · rcases hddesc id hd2 with ⟨c, hcmem, D, hDm, hDdesc, heq⟩
        exact ⟨D, hDm, desc_via_child hnd hT hcmem hDdesc, heq⟩
    · intro D hD hdesc
      rcases desc_decompose hnd hc hT hD hdesc with rfl | ⟨c, hcmem, hcdesc⟩
      · rw [hdeq]
        refine List.mem_append_left d ?_
        exact List.mem_append_right st.visited (List.mem_singleton.2 rfl)
      · exact hall c hcmem D hD hcdesc

theorem alookup_mem_of_mem_fst {l : List (String × α)} {idv : String}
    (h : idv ∈ l.map Prod.fst) :
    ∃ v, alookup l idv = some v ∧ (idv, v) ∈ l := by
  rcases hf : l.find? (fun e => e.1 = idv) with _ | e
  · exfalso
    rcases List.mem_map.1 h with ⟨pr, hpr, heq⟩
    have := List.find?_eq_none.1 hf pr hpr
    simp [heq] at this
  · have he1 := List.find?_some hf
    simp only [decide_eq_true_eq] at he1
    have hem := List.mem_of_find?_eq_some hf
    refine ⟨e.2, ?_, ?_⟩
    · unfold alookup
      rw [hf]
      rfl
    · have heq : (idv, e.2) = e := by
        rcases e with ⟨e1, e2⟩
        simp only at he1
        rw [he1]
      rw [heq]
      exact hem

theorem find_map_id_pres {g : Tag → Tag} (hg : ∀ t, (g t).id = t.id)
    (tid : String) :
    ∀ l : List Tag, (l.map g).find? (fun t => t.id = tid) =
      (l.find? (fun t => t.id = tid)).map g := by
  intro l
  induction l with
  | nil => rfl
  | cons t l ih =>
    by_cases h : t.id = tid
    · have h1 : (g t).id = tid := by rw [hg]; exact h
      simp [List.find?_cons, h, h1]
    · have h1 : ¬ (g t).id = tid := by rw [hg]; exact h
      simp [List.find?_cons, h, h1, ih]

theorem propagate_filters {p : ServiceProps} (hne : p.filters.isEmpty = false)
    (hroots : (rootsOf p.filters).isEmpty = false) :
    (propagateConstraints p).filters =
      p.filters.map (fun t =>
        match alookup (foldVisit p.filters p.filters.length {}
            (rootsOf p.filters) ⟨[], []⟩).out t.id with
        | some pa => applyPatch t pa
        | none => t) := by
  simp only [propagateConstraints, hne, hroots, Bool.false_eq_true, if_false]
  rfl

theorem effectiveOf_eq_theory {p : ServiceProps} {dep : String → Nat}
    (hnd : (p.filters.map Tag.id).Nodup) (hc : DepCert p.filters dep) :
    ∀ T ∈ p.filters, ∀ k, effectiveOf p T.id k = effTheory p.filters dep T k := by
  intro T hT k
  have hne : p.filters.isEmpty = false := by
    cases hf : p.filters with
    | nil => rw [hf] at hT; cases hT
    | cons a l => rfl
  rcases parentIter_total hc hT (dep T.id) (le_refl _) with ⟨R, hR⟩
  have hRfacts := parentIter_mem_dep hc (dep T.id) T R hT hR
  have hRdep : dep R.id = 0 := by omega
  have hRroot : parentTag p.filters R = none := by
    rcases hp : parentTag p.filters R with _ | pt
    · rfl
    · have := (hc R hRfacts.1).1 pt hp
      omega
  have hRmem : R ∈ rootsOf p.filters := mem_rootsOf.2 ⟨hRfacts.1, hRroot⟩
  have hroots : (rootsOf p.filters).isEmpty = false := by
    cases hf : rootsOf p.filters with
    | nil => rw [hf] at hRmem; cases hRmem
    | cons a l => rfl
  have hfold := visit_fold hnd p.filters.length
    (fun C hC => visit_main hnd hc p.filters.length C hC)
    {} (rootsOf p.filters)
    ((List.Nodup.of_map _ hnd).filter _)
    (fun r hr => (mem_rootsOf.1 hr).1)
    (fun r _ => Nat.le_add_right _ _)
    (fun r hr k2 => by
      rw [(mem_rootsOf.1 hr).2, flagMap_get_empty]
      rfl)
    (fun r1 h1 r2 h2 D hD hd1 hd2 =>
      root_unique hc (mem_rootsOf.1 h1).1 (mem_rootsOf.1 h2).1
        (mem_rootsOf.1 h1).2 (mem_rootsOf.1 h2).2 hD hd1 hd2)
    ⟨[], []⟩ ⟨rfl, List.nodup_nil, fun pr hpr => absurd hpr (List.not_mem_nil pr)⟩
    (fun r _ D _ _ hmem => absurd hmem (List.not_mem_nil D.id))
  rcases hfold with ⟨⟨hov, _, hgood⟩, _, hall⟩
  have hTv : T.id ∈ (foldVisit p.filters p.filters.length {}
      (rootsOf p.filters) ⟨[], []⟩).visited :=
    hall R hRmem T hT ⟨dep T.id, hR⟩
  rw [← hov] at hTv
  rcases alookup_mem_of_mem_fst hTv with ⟨pa, hlook, hpamem⟩
  rcases hgood (T.id, pa) hpamem with ⟨D, hDm, hid, hval⟩
  have hDT : D = T := tagId_inj hnd D T hDm hT hid.symm
  rw [hDT] at hval
  unfold effectiveOf
  rw [propagate_filters hne hroots]
  have hg : ∀ t : Tag, ((fun t2 : Tag =>
      match alookup (foldVisit p.filters p.filters.length {}
          (rootsOf p.filters) ⟨[], []⟩).out t2.id with
      | some pa2 => applyPatch t2 pa2
      | none => t2) t).id = t.id := by
    intro t
    rcases halo : alookup (foldVisit p.filters p.filters.length {}
        (rootsOf p.filters) ⟨[], []⟩).out t.id with _ | pa2
    · simp only [halo]
    · simp only [halo]
      rfl
  rw [find_map_id_pres hg T.id p.filters, find_self hnd hT]
  simp only [Option.map_some']
  have hgT : (match alookup (foldVisit p.filters p.filters.length {}
      (rootsOf p.filters) ⟨[], []⟩).out T.id with
      | some pa2 => applyPatch T pa2
      | none => T) = applyPatch T pa := by
    rw [hlook]
  rw [hgT]
  exact hval k

/-- C1 (amended): in a forest of tags with unique ids whose bind edges are
acyclic (witnessed by a depth certificate), `propagateConstraints` gives
every tag the constraint value declared by the FARTHEST declaring tag on
its ancestor chain (ancestor-wins), for each of `refill`, `cancel`, and
`dripfeed`; the claim as frozen says nearest-wins, which
`claim_C1_counterexample` refutes. -/
theorem claim_C1_constraint_propagation (p : ServiceProps) (dep : String → Nat)
    (hnd : (p.filters.map Tag.id).Nodup) (hcert : depCertB p dep = true) :
    ∀ T ∈ p.filters, ∀ k, effectiveOf p T.id k =
      farthestDecl p.filters p.filters.length T k := by
  intro T hT k
  have hc := depCertB_spec hcert
  rw [effectiveOf_eq_theory hnd hc T hT k]
  exact (farthestDecl_fuel hc p.filters.length T k hT
    (Nat.le_of_lt (dep_lt_length hnd hc T hT))).symm

/-- C1 witness: the amended theorem applied to the two-tag document with
an explicit depth certificate. -/
theorem claim_C1_witness :
    ((pC1.filters.map Tag.id).Nodup ∧
      depCertB pC1 (fun s => if s = "c" then 1 else 0) = true ∧
      tagC1child ∈ pC1.filters) ∧
    effectiveOf pC1 tagC1child.id Flag.refill =
      farthestDecl pC1.filters pC1.filters.length tagC1child Flag.refill := by
  refine ⟨⟨by decide, by decide, by decide⟩, ?_⟩
  exact claim_C1_constraint_propagation pC1 (fun s => if s = "c" then 1 else 0)
    (by decide) (by decide) tagC1child (by decide) Flag.refill

/-! ## Normalisation (src/core/normalise.ts): raw payload coercion

Raw payloads are modelled over the value space the coercers distinguish:
strings and integral numbers (`JPrim`), with numeric service ids and
string root-include lists (the shapes the engine documents and emits).
An `Option` field models presence of the JS object key. -/

/-- JS `String(x)` on the primitives we model. -/
def jsString : JPrim → String
  | .s v => v
  | .n v => toString v

/-- JS `Array.from(new Set(arr))`: first occurrence kept, order preserved. -/
def jsDedupe [DecidableEq α] (l : List α) : List α :=
  l.foldl (fun acc x => if x ∈ acc then acc else acc ++ [x]) []

/-- Source `str`: a string whose trim is nonempty, returned untrimmed. -/
def strF : Option JPrim → Option String
  | some (.s v) => if jsTrim v = "" then none else some v
  | _ => none

/-- Source `toStringArray` on an array value. -/
def toStringArrayL (l : List JPrim) : List String :=
  (l.map jsString).filter (fun s => ¬ jsTrim s = "")

/-- Source `toStringArray`: non-arrays (absent keys) give `[]`. -/
def toStringArray : Option (List JPrim) → List String
  | some l => toStringArrayL l
  | none => []

/-- Raw tag payload (`coerceTag` input). `constraints_origin` and
`constraints_overrides` can be present on a re-ingested canonical tag;
`coerceTag` does not read them. -/
structure RawTag where
  id : Option JPrim := none
  label : Option JPrim := none
  bind_id : Option JPrim := none
  bindId : Option JPrim := none
  service_id : Option Int := none
  serviceId : Option Int := none
  includes : Option (List JPrim) := none
  excludes : Option (List JPrim) := none
  constraints : Option (FlagMap Bool) := none
  constraints_origin : Option (FlagMap String) := none
  constraints_overrides : Option (FlagMap OverrideRec) := none
  meta : Option (List (String × String)) := none
deriving DecidableEq, Repr

/-- Source `coerceTag`. -/
def coerceTag (src : RawTag) : Tag :=
  { id := (strF src.id).getD ""
    label := (strF src.label).getD ""
    bind_id := (strF src.bind_id).orElse (fun _ => strF src.bindId)
    service_id := src.service_id.orElse (fun _ => src.serviceId)
    constraints := src.constraints
    includes := jsDedupe (toStringArray src.includes)
    excludes := jsDedupe (toStringArray src.excludes)
    meta := src.meta.getD [] }

/-- Raw field binding: a string or an array (`normaliseBindId` input). -/
inductive RawBind
  | s (v : String)
  | arr (l : List JPrim)
deriving DecidableEq, Repr

/-- Source `normaliseBindId`. -/
def normaliseBindId : Option RawBind → BindId
  | some (.s v) => if jsTrim v = "" then .noneB else .one (jsTrim v)
  | some (.arr l) =>
    let arr := jsDedupe ((l.map (fun b => jsTrim (jsString b))).filter
      (fun s => ¬ s = ""))
    match arr with
    | [] => .noneB
    | [a] => .one a
    | _ => .many arr
  | none => .noneB

/-- Raw option payload (`coerceOption` input). -/
structure RawOption where
  id : Option JPrim := none
  label : Option JPrim := none
  value : Option JPrim := none
  service_id : Option Int := none
  serviceId : Option Int := none
  pricing_role : Option JPrim := none
  meta : Option OptMeta := none
deriving DecidableEq, Repr

/-- Source `coerceOption`. -/
def coerceOption (src : RawOption) (inheritRole : PricingRole) : FieldOption :=
  { id := (strF src.id).getD ""
    label := (strF src.label).getD ""
    value := src.value
    service_id := src.service_id.orElse (fun _ => src.serviceId)
    pricing_role := some (match src.pricing_role with
      | some (.s "utility") => .utility
      | some (.s "base") => .base
      | _ => inheritRole)
    meta := src.meta }

/-- Raw field payload (`coerceField` input). The untyped `button` property
is carried but never read by the coercer. -/
structure RawField where
  id : Option JPrim := none
  type : Option JPrim := none
  bind_id : Option RawBind := none
  bind : Option RawBind := none
  name : Option JPrim := none
  button : Option Bool := none
  options : Option (List RawOption) := none
  component : Option JPrim := none
  pricing_role : Option JPrim := none
  label : Option JPrim := none
  placeholder : Option JPrim := none
  helperText : Option JPrim := none
  labelClassName : Option JPrim := none
  required : Option Bool := none
  axis : Option JPrim := none
  labelAxis : Option JPrim := none
  extra : Option String := none
  meta : Option OptMeta := none
deriving DecidableEq, Repr

/-- Source `coerceField`. -/
def coerceField (src : RawField) (defRole : PricingRole) : Field :=
  let type := (strF src.type).getD "text"
  let pricing_role : PricingRole :=
    match src.pricing_role with
    | some (.s "utility") => .utility
    | some (.s "base") => .base
    | _ => defRole
  { id := (strF src.id).getD ""
    type := type
    bind_id := normaliseBindId (src.bind_id.orElse (fun _ => src.bind))
    name := match src.name with
      | some (.s s) => some s
      | _ => none
    options := (src.options.getD []).map (fun o => coerceOption o pricing_role)
    component := if type = "custom" then strF src.component else none
    pricing_role := some pricing_role
    label := (strF src.label).getD ""
    placeholder := match src.placeholder with
      | some (.s s) => s
      | _ => ""
    helperText := match src.helperText with
      | some (.s s) => s
      | _ => ""
    helperTextPos := "bottom"
    labelClassName := match src.labelClassName with
      | some (.s s) => s
      | _ => ""
    required := src.required.getD false
    axis := match src.axis with
      | some (.s "x") => .x
      | some (.s "y") => .y
      | _ => .y
    labelAxis := match src.labelAxis with
      | some (.s "x") => .x
      | some (.s "y") => .y
      | _ => .x
    extra := src.extra
    meta := src.meta }

/-- Raw option-map payload (`toStringArrayMap` input): object entries in
insertion order, values arrays. -/
abbrev RawMap := List (String × List JPrim)

/-- Source `toStringArrayMap` (empty result becomes `undefined`, which is
what the `isNonEmpty` spread gate in `normalise` tests). -/
def toStringArrayMap : Option RawMap → Option (List (String × List String))
  | none => none
  | some m =>
    let out := m.foldl (fun acc kv =>
      if kv.1 = "" then acc
      else
        let arr := toStringArrayL kv.2
        if arr.isEmpty then acc else acc ++ [(kv.1, jsDedupe arr)]) []
    if out.isEmpty then none else some out

/-- Raw fallbacks value: a node/service candidate array, or a nested
object (as the canonical `nodes`/`global` records are). -/
inductive RawFbVal
  | arr (l : List ServiceId)
  | obj (m : List (String × List ServiceId))
deriving DecidableEq, Repr

/-- Raw fallbacks payload: object entries in insertion order. -/
abbrev RawFb := List (String × RawFbVal)

/-- Source `toServiceIdArray`: non-arrays give `[]`. -/
def toServiceIdArray : RawFbVal → List ServiceId
  | .arr l => l
  | .obj _ => []

/-- Candidate cleanup: drop self references against the key, dedupe. -/
def cleanRefs (key : String) (l : List ServiceId) : List ServiceId :=
  jsDedupe (l.filter (fun x => ¬ toString x = key))

/-- Source `coerceFallbacks`. Every key other than `global` is treated as
a node id, including the canonical `nodes` wrapper key, whose object
value then coerces to the empty candidate list and is dropped. -/
def coerceFallbacks (src : Option RawFb) : Option ServiceFallback :=
  match src with
  | none => none
  | some fb =>
    let rg := match alookup fb "global" with
      | some (.obj g) =>
        g.foldl (fun acc kv =>
          let clean := cleanRefs kv.1 kv.2
          if clean.isEmpty then acc else acc ++ [(kv.1, clean)]) []
      | some (.arr _) => []
      | none => []
    let rn := fb.foldl (fun acc kv =>
      if kv.1 = "global" then acc
      else
        let clean := cleanRefs kv.1 (toServiceIdArray kv.2)
        if clean.isEmpty then acc else acc ++ [(kv.1, clean)]) []
    if rn.isEmpty && rg.isEmpty then none else some ⟨rn, rg⟩

/-- Raw top-level payload (`normalise` input, an object). The three
button/order maps are carried so that dropping them is observable. -/
structure RawDoc where
  filters : Option (List RawTag) := none
  tags : Option (List RawTag) := none
  fields : Option (List RawField) := none
  includes_for_options : Option RawMap := none
  includesForOptions : Option RawMap := none
  excludes_for_options : Option RawMap := none
  excludeForOptions : Option RawMap := none
  includes_for_buttons : Option RawMap := none
  excludes_for_buttons : Option RawMap := none
  order_for_tags : Option RawMap := none
  rootIncludes : Option (List String) := none
  rootExcludes : Option (List String) := none
  schema_version : Option JPrim := none
  fallbacks : Option RawFb := none
deriving DecidableEq, Repr

structure NormaliseOptions where
  defaultPricingRole : Option PricingRole := none
deriving DecidableEq, Repr

/-- Source `normalise`: coercion, root injection, legacy root-list
migration, option-map coercion, fallback coercion, then constraint
propagation over the result. -/
def normalise (input : RawDoc) (opts : NormaliseOptions) : ServiceProps :=
  let defRole := opts.defaultPricingRole.getD .base
  let tags0 := ((input.filters.orElse (fun _ => input.tags)).getD []).map
    coerceTag
  let fields := (input.fields.getD []).map (fun f => coerceField f defRole)
  let hasRoot := tags0.any (fun t => t.id = "root")
  let tags1 := if hasRoot then tags0
    else ({ id := "root", label := "Root" } : Tag) :: tags0
  let rootInc := input.rootIncludes.getD []
  let rootExc := input.rootExcludes.getD []
  let tags2 := if rootInc.isEmpty && rootExc.isEmpty then tags1
    else tags1.map (fun t =>
      if ¬ t.id = "root" then t
      else
        let includes := jsDedupe (t.includes ++ rootInc)
        let excludes := jsDedupe (t.excludes ++ rootExc)
        { t with
          includes := includes.filter (fun i => ¬ i ∈ excludes)
          excludes := excludes })
  propagateConstraints
    { filters := tags2
      fields := fields
      includes_for_options := toStringArrayMap
        (input.includes_for_options.orElse (fun _ => input.includesForOptions))
      excludes_for_options := toStringArrayMap
        (input.excludes_for_options.orElse (fun _ => input.excludeForOptions))
      schema_version := some (match input.schema_version with
        | some (.s v) => v
        | _ => "1.0")
      fallbacks := coerceFallbacks input.fallbacks }

/-! Re-ingestion of a canonical document: the JS object produced by
`normalise` viewed as a raw payload again. Keys the coercers emit only
when defined become absent raw keys. -/

def toRawTag (t : Tag) : RawTag :=
  { id := some (.s t.id)
    label := some (.s t.label)
    bind_id := t.bind_id.map .s
    service_id := t.service_id
    includes := if t.includes.isEmpty then none
      else some (t.includes.map JPrim.s)
    excludes := if t.excludes.isEmpty then none
      else some (t.excludes.map JPrim.s)
    constraints := t.constraints
    constraints_origin := t.constraints_origin
    constraints_overrides := t.constraints_overrides
    meta := if t.meta.isEmpty then none else some t.meta }

def roleStr : PricingRole → String
  | .base => "base"
  | .utility => "utility"

def toRawOption (o : FieldOption) : RawOption :=
  { id := some (.s o.id)
    label := some (.s o.label)
    value := o.value
    service_id := o.service_id
    pricing_role := o.pricing_role.map (fun r => .s (roleStr r))
    meta := o.meta }

def toRawField (f : Field) : RawField :=
  { id := some (.s f.id)
    type := some (.s f.type)
    bind_id := match f.bind_id with
      | .noneB => none
      | .one s => some (.s s)
      | .many l => some (.arr (l.map JPrim.s))
    name := f.name.map .s
    options := if f.options.isEmpty then none
      else some (f.options.map toRawOption)
    component := f.component.map .s
    pricing_role := f.pricing_role.map (fun r => .s (roleStr r))
    label := some (.s f.label)
    placeholder := some (.s f.placeholder)
    helperText := some (.s f.helperText)
    labelClassName := some (.s f.labelClassName)
    required := some f.required
    axis := some (.s (match f.axis with | .x => "x" | .y => "y"))
    labelAxis := some (.s (match f.labelAxis with | .x => "x" | .y => "y"))
    extra := f.extra
    meta := f.meta }

def toRawFb (fb : ServiceFallback) : RawFb :=
  (if fb.global.isEmpty then [] else [("global", RawFbVal.obj fb.global)]) ++
  (if fb.nodes.isEmpty then [] else [("nodes", RawFbVal.obj fb.nodes)])

def toRawMap (m : List (String × List String)) : RawMap :=
  m.map (fun kv => (kv.1, kv.2.map JPrim.s))

def toRaw (p : ServiceProps) : RawDoc :=
  { filters := some (p.filters.map toRawTag)
    fields := some (p.fields.map toRawField)
    includes_for_options := p.includes_for_options.map toRawMap
    excludes_for_options := p.excludes_for_options.map toRawMap
    includes_for_buttons := p.includes_for_buttons.map toRawMap
    excludes_for_buttons := p.excludes_for_buttons.map toRawMap
    order_for_tags := p.order_for_tags.map toRawMap
    schema_version := p.schema_version.map .s
    fallbacks := p.fallbacks.map toRawFb }

/-! ## Fallback resolution (src/core/utils/fallback.ts) -/

/-- Provider service capability entry: the fields the resolver reads
(`rate`, and the three constraint flags, absent meaning `false`). Rates
are exact rationals (finite JS numbers). -/
structure DgpService where
  rate : Option ℚ := none
  dripfeed : Bool := false
  refill : Bool := false
  cancel : Bool := false
deriving DecidableEq, Repr

/-- Provider catalog keyed by numeric service id. With numeric ids the
source lookup `map[Number(id)] ?? map[id]` is a single lookup. -/
abbrev DgpServiceMap := List (ServiceId × DgpService)

def getCap (m : DgpServiceMap) (k : ServiceId) : Option DgpService :=
  (m.find? (fun e => e.1 = k)).map (fun e => e.2)

def rateOf (m : DgpServiceMap) (k : ServiceId) : Option ℚ :=
  (getCap m k).bind (fun c => c.rate)

inductive RatePolicy
  | lte_primary
  | within_pct (pct : ℚ)
  | at_least_pct_lower (pct : ℚ)
deriving DecidableEq, Repr

/-- Partial fallback settings; `{...DEFAULT_SETTINGS, ...settings}` fills
the absent keys (`requireConstraintFit: true, ratePolicy: lte_primary`). -/
structure FallbackSettings where
  requireConstraintFit : Option Bool := none
  ratePolicy : Option RatePolicy := none
deriving DecidableEq, Repr

/-- Source `passesRate`: false when either rate is missing. -/
def passesRate (policy : RatePolicy) (primaryRate candRate : Option ℚ) :
    Bool :=
  match candRate, primaryRate with
  | some c, some p =>
    match policy with
    | .lte_primary => c ≤ p
    | .within_pct pct => c ≤ p * (1 + pct / 100)
    | .at_least_pct_lower pct => c ≤ p * (1 - pct / 100)
  | _, _ => false

/-- Source `satisfiesTagConstraints`: only flags explicitly `true` on the
tag are enforced against the candidate capability. -/
def satisfiesTagConstraints (tagId : String) (props : ServiceProps)
    (cap : DgpService) : Bool :=
  match props.filters.find? (fun t => t.id = tagId) with
  | none => true
  | some tag =>
    match tag.constraints with
    | none => true
    | some eff =>
      if eff.dripfeed = some true && !cap.dripfeed then false
      else if eff.refill = some true && !cap.refill then false
      else !(eff.cancel = some true && !cap.cancel)

/-- Candidate scan of `resolveServiceFallback`: skip already-tried ids,
push every fresh id onto `tried` before checking it, return the first id
that is in the catalog, passes the rate policy and (when required and a
tag context is given) fits the tag constraints. -/
def resolveLoop (services : DgpServiceMap) (props : ServiceProps)
    (pol : RatePolicy) (requireFit : Bool) (tagId : Option String)
    (primaryRate : Option ℚ) :
    List ServiceId → List ServiceId → Option ServiceId
  | [], _ => none
  | c :: rest, tried =>
    if c ∈ tried then
      resolveLoop services props pol requireFit tagId primaryRate rest tried
    else
      let tried2 := tried ++ [c]
      match getCap services c with
      | none =>
        resolveLoop services props pol requireFit tagId primaryRate rest tried2
      | some cap =>
        if passesRate pol primaryRate cap.rate then
          match tagId with
          | some tid =>
            if requireFit && ¬ tid = "" then
              if satisfiesTagConstraints tid props cap then some c
              else resolveLoop services props pol requireFit tagId primaryRate
                rest tried2
            else some c
          | none => some c
        else
          resolveLoop services props pol requireFit tagId primaryRate rest
            tried2

/-- Node-scoped candidate list: present only when a non-empty `nodeId` is
given and the nodes record has an entry for it. -/
def nodeListOf (fb : ServiceFallback) (nodeId : Option String) :
    List ServiceId :=
  match nodeId with
  | some nid =>
    if nid = "" then []
    else
      match alookup fb.nodes nid with
      | some l => l
      | none => []
  | none => []

/-- Global candidate list, keyed by the string form of the primary id. -/
def globalListOf (fb : ServiceFallback) (primary : ServiceId) :
    List ServiceId :=
  match alookup fb.global (toString primary) with
  | some l => l
  | none => []

/-- Source `resolveServiceFallback` (`null` becomes `none`). -/
def resolveServiceFallback (primary : ServiceId) (nodeId : Option String)
    (tagId : Option String) (services : DgpServiceMap)
    (fallbacks : Option ServiceFallback) (settings : Option FallbackSettings)
    (props : ServiceProps) : Option ServiceId :=
  let s := settings.getD {}
  let requireFit := s.requireConstraintFit.getD true
  let pol := s.ratePolicy.getD .lte_primary
  let fb := fallbacks.getD {}
  resolveLoop services props pol requireFit tagId (rateOf services primary)
    (nodeListOf fb nodeId ++ globalListOf fb primary) []

/-- Pass predicate the claim describes: in the catalog, rate-compatible,
and tag-constraint-fitting when required and a tag context is given. -/
def passOKB (services : DgpServiceMap) (props : ServiceProps)
    (pol : RatePolicy) (requireFit : Bool) (tagId : Option String)
    (primaryRate : Option ℚ) (c : ServiceId) : Bool :=
  match getCap services c with
  | none => false
  | some cap =>
    passesRate pol primaryRate cap.rate &&
    (match tagId with
     | some tid =>
       if requireFit && ¬ tid = "" then satisfiesTagConstraints tid props cap
       else true
     | none => true)

/-- Candidate sequence the claim describes: node-scoped list first, then
the global list of the primary. -/
def candidatesOf (fb : ServiceFallback) (nodeId : Option String)
    (primary : ServiceId) : List ServiceId :=
  nodeListOf fb nodeId ++ globalListOf fb primary

def policyOf (settings : Option FallbackSettings) : RatePolicy :=
  (settings.getD {}).ratePolicy.getD .lte_primary

def fitOf (settings : Option FallbackSettings) : Bool :=
  (settings.getD {}).requireConstraintFit.getD true

/-- Capability flag of a candidate, per constraint key. -/
def capFlag (cap : DgpService) : Flag → Bool
  | .refill => cap.refill
  | .cancel => cap.cancel
  | .dripfeed => cap.dripfeed

theorem resolveLoop_eq_find (services : DgpServiceMap) (props : ServiceProps)
    (pol : RatePolicy) (requireFit : Bool) (tagId : Option String)
    (primaryRate : Option ℚ) :
    ∀ (cands tried : List ServiceId),
      (∀ x ∈ tried,
        passOKB services props pol requireFit tagId primaryRate x = false) →
      resolveLoop services props pol requireFit tagId primaryRate cands tried =
        cands.find?
          (passOKB services props pol requireFit tagId primaryRate) := by
  intro cands
  induction cands with
  | nil => intro tried _; rfl
  | cons c rest ih =>
    intro tried htried
    have hext : passOKB services props pol requireFit tagId primaryRate c =
        false →
        ∀ x ∈ tried ++ [c],
          passOKB services props pol requireFit tagId primaryRate x = false :=
      fun h2 x hx => by
        rcases List.mem_append.1 hx with h | h
        · exact htried x h
        · rw [List.mem_singleton.1 h]
          exact h2
    by_cases hct : c ∈ tried
    · have hpc := htried c hct
      simp [resolveLoop, hct, List.find?_cons, hpc, ih tried htried]
    · rcases hcap : getCap services c with _ | cap
      · have hpc : passOKB services props pol requireFit tagId primaryRate c =
            false := by simp [passOKB, hcap]
        simp [resolveLoop, hct, hcap, List.find?_cons, hpc, ih _ (hext hpc)]
      · rcases hrate : passesRate pol primaryRate cap.rate with _ | _
        · have hpc : passOKB services props pol requireFit tagId primaryRate
              c = false := by simp [passOKB, hcap, hrate]
          simp [resolveLoop, hct, hcap, hrate, List.find?_cons, hpc,
            ih _ (hext hpc)]
        · rcases tagId with _ | tid
          · have hpc : passOKB services props pol requireFit none primaryRate
                c = true := by simp [passOKB, hcap, hrate]
            simp [resolveLoop, hct, hcap, hrate, List.find?_cons, hpc]
          · rcases hrf : requireFit with _ | _
            · subst hrf
              have hpc : passOKB services props pol false (some tid)
                  primaryRate c = true := by
                simp [passOKB, hcap, hrate]
              simp [resolveLoop, hct, hcap, hrate, List.find?_cons, hpc]
            · subst hrf
              by_cases htid : tid = ""
              · subst htid
                have hpc : passOKB services props pol true (some "")
                    primaryRate c = true := by
                  simp [passOKB, hcap, hrate]
                simp [resolveLoop, hct, hcap, hrate, List.find?_cons,
                  hpc]
              · rcases hsat : satisfiesTagConstraints tid props cap with _ | _
                · have hpc : passOKB services props pol true (some tid)
                      primaryRate c = false := by
                    simp [passOKB, hcap, hrate, htid, hsat]
                  simp [resolveLoop, hct, hcap, hrate, htid, hsat,
                    List.find?_cons, hpc, ih _ (hext hpc)]
                · have hpc : passOKB services props pol true (some tid)
                      primaryRate c = true := by
                    simp [passOKB, hcap, hrate, htid, hsat]
                  simp [resolveLoop, hct, hcap, hrate, htid, hsat,
                    List.find?_cons, hpc]

theorem flag_forall (P : Flag → Prop) :
    (∀ k, P k) ↔ P .refill ∧ P .cancel ∧ P .dripfeed :=
  ⟨fun h => ⟨h _, h _, h _⟩, fun h k => by
    cases k
    · exact h.1
    · exact h.2.1
    · exact h.2.2⟩

theorem satisfiesTagConstraints_iff (tid : String) (props : ServiceProps)
    (cap : DgpService) {tag : Tag} {eff : FlagMap Bool}
    (hf : props.filters.find? (fun t => t.id = tid) = some tag)
    (hc : tag.constraints = some eff) :
    satisfiesTagConstraints tid props cap = true ↔
      ∀ k, eff.get k = some true → capFlag cap k = true := by
  unfold satisfiesTagConstraints
  simp only [hf, hc]
  rw [flag_forall]
  rcases eff with ⟨er, ec, ed⟩
  rcases hd : cap.dripfeed with _ | _ <;> rcases hr : cap.refill with _ | _ <;>
      rcases hcc : cap.cancel with _ | _ <;>
      rcases er with _ | (_ | _) <;> rcases ec with _ | (_ | _) <;>
      rcases ed with _ | (_ | _) <;>
    simp only [hd, hr, hcc, FlagMap.get, capFlag] <;> decide

/-- C7 witness data: a within-pct-10 scenario at primary rate 100 with a
node-scoped list, and a tag requiring refill. -/
def srvC7 : DgpServiceMap :=
  [(100, { rate := some 100 }), (109, { rate := some 109 }),
   (111, { rate := some 111 })]

def fbC7 : ServiceFallback := { nodes := [("n1", [111, 109])], global := [] }

def tagC7 : Tag :=
  { id := "t", label := "T", constraints := some { refill := some true } }

def pC7 : ServiceProps := { filters := [tagC7] }

def effC7 : FlagMap Bool := { refill := some true }

def capC7 : DgpService := { refill := true }

/-- C7: `resolveServiceFallback` returns exactly the first candidate of
the node-scoped list (when a node id is given and has an entry) followed
by the global list of the primary that is present in the catalog, passes
the configured rate policy and, when constraint fit is required and a tag
context is given, satisfies every constraint flag set to `true` on that
tag (false or absent flags impose no requirement); it returns `none`
exactly when no candidate passes. Under `within_pct` with pct 10 and
primary rate 100, rate 109 passes and rate 111 fails. -/
theorem claim_C7_fallback_resolution :
    (∀ (primary : ServiceId) (nodeId tagId : Option String)
        (services : DgpServiceMap) (fallbacks : Option ServiceFallback)
        (settings : Option FallbackSettings) (props : ServiceProps),
      resolveServiceFallback primary nodeId tagId services fallbacks settings
          props =
        (candidatesOf (fallbacks.getD {}) nodeId primary).find?
          (passOKB services props (policyOf settings) (fitOf settings) tagId
            (rateOf services primary)) ∧
      (resolveServiceFallback primary nodeId tagId services fallbacks settings
          props = none ↔
        ∀ c ∈ candidatesOf (fallbacks.getD {}) nodeId primary,
          passOKB services props (policyOf settings) (fitOf settings) tagId
            (rateOf services primary) c = false)) ∧
    passesRate (.within_pct 10) (some 100) (some 109) = true ∧
    passesRate (.within_pct 10) (some 100) (some 111) = false ∧
    (∀ (tid : String) (props : ServiceProps) (cap : DgpService)
        (tag : Tag) (eff : FlagMap Bool),
      props.filters.find? (fun t => t.id = tid) = some tag →
      tag.constraints = some eff →
      (satisfiesTagConstraints tid props cap = true ↔
        ∀ k, eff.get k = some true → capFlag cap k = true)) := by
  refine ⟨?_, ?_, ?_,
    fun tid props cap tag eff hf hc =>
      satisfiesTagConstraints_iff tid props cap hf hc⟩
  case refine_2 =>
    simp only [passesRate]
    rw [decide_eq_true_eq]
    norm_num
  case refine_3 =>
    simp only [passesRate]
    rw [decide_eq_false_iff_not]
    norm_num
  intro primary nodeId tagId services fallbacks settings props
  have h1 : resolveServiceFallback primary nodeId tagId services fallbacks
      settings props =
      (candidatesOf (fallbacks.getD {}) nodeId primary).find?
        (passOKB services props (policyOf settings) (fitOf settings) tagId
          (rateOf services primary)) :=
    resolveLoop_eq_find services props (policyOf settings) (fitOf settings)
      tagId (rateOf services primary)
      (candidatesOf (fallbacks.getD {}) nodeId primary) []
      (fun x hx => absurd hx (List.not_mem_nil x))
  refine ⟨h1, ?_⟩
  rw [h1]
  simp [List.find?_eq_none]

/-- C7 witness: the characterization and the concrete within-pct scenario
(111 is scanned first and rejected on rate, 109 is returned). -/
theorem claim_C7_witness :
    (resolveServiceFallback 100 (some "n1") none srvC7 (some fbC7)
        (some { ratePolicy := some (RatePolicy.within_pct 10) }) {} =
      (candidatesOf fbC7 (some "n1") 100).find?
        (passOKB srvC7 {}
          (policyOf (some { ratePolicy := some (RatePolicy.within_pct 10) }))
          (fitOf (some { ratePolicy := some (RatePolicy.within_pct 10) }))
          none (rateOf srvC7 100))) ∧
    (satisfiesTagConstraints "t" pC7 capC7 = true ↔
      ∀ k, effC7.get k = some true → capFlag capC7 k = true) ∧
    resolveServiceFallback 100 (some "n1") none srvC7 (some fbC7)
      (some { ratePolicy := some (RatePolicy.within_pct 10) }) {} =
      some 109 := by
  refine ⟨(claim_C7_fallback_resolution.1 100 (some "n1") none srvC7
      (some fbC7) (some { ratePolicy := some (RatePolicy.within_pct 10) })
      {}).1,
    claim_C7_fallback_resolution.2.2.2 "t" pC7 capC7 tagC7 effC7
      (by decide) (by decide), ?_⟩
  norm_num [resolveServiceFallback, resolveLoop, nodeListOf, globalListOf,
    getCap, rateOf, alookup, passesRate, srvC7, fbC7]

/-- Failing input for C5: a legacy-shaped fallback list for node `n1`. -/
def xC5 : RawDoc :=
  { fallbacks := some [("n1", RawFbVal.arr [2, 3])] }

/-- C5 fails: `normalise` is not idempotent. The first pass canonicalises
the legacy fallback shape into `{ nodes: { n1: [2, 3] } }`; re-ingesting
that canonical document, `coerceFallbacks` treats the `nodes` wrapper key
itself as a node id whose object value coerces to an empty candidate
list, so the fallbacks component is dropped entirely and
`normalise(normalise(x))` differs from `normalise(x)`. -/
theorem claim_C5_normalise_idempotence :
    (normalise xC5 {}).fallbacks =
      some { nodes := [("n1", [2, 3])], global := [] } ∧
    (normalise (toRaw (normalise xC5 {})) {}).fallbacks = none ∧
    ¬ normalise (toRaw (normalise xC5 {})) {} = normalise xC5 {} := by
  refine ⟨by decide, by decide, by decide⟩

/-- Record update in `propagateConstraints` touches only `filters`. -/
theorem propagate_preserves_keys (p : ServiceProps) :
    (propagateConstraints p).order_for_tags = p.order_for_tags ∧
    (propagateConstraints p).includes_for_buttons = p.includes_for_buttons ∧
    (propagateConstraints p).excludes_for_buttons = p.excludes_for_buttons ∧
    (propagateConstraints p).schema_version = p.schema_version := by
  by_cases h : p.filters.isEmpty = true <;> simp [propagateConstraints, h]

/-! ## Simulation-enabled validateVisibility
(src/core/validate/steps/visibility.ts) -/

/-- Validation context slice the visibility step reads and writes:
`v.tags` is `props.filters`, `fieldsVisibleUnder` routes through the
engine with the CURRENT `selectedKeys`, so only these three fields
matter. -/
structure Ctx where
  props : ServiceProps
  selectedKeys : List String
  errors : List VError
deriving DecidableEq, Repr

def isFiniteNumber (v : Option Int) : Bool :=
  v.isSome

/-- Source `stableKeyOfSelection`: sorted join of the selection set. -/
def stableKeyOfSelection (keys : List String) : String :=
  String.intercalate "|" (sortStrings keys)

/-- Source `resolveRootTags`: unbound tags, else the first tag. -/
def resolveRootTags (tags : List Tag) : List Tag :=
  let roots := tags.filter (fun t =>
    match t.bind_id with
    | none => true
    | some b => b = "")
  if roots.isEmpty then tags.take 1 else roots

/-- Source `isEffectfulTrigger`. -/
def isEffectfulTrigger (props : ServiceProps) (trigger : String) : Bool :=
  let inc := props.includes_for_buttons.getD []
  let exc := props.excludes_for_buttons.getD []
  (match alookup inc trigger with
   | some l => decide (0 < l.length)
   | none => false) ||
  (match alookup exc trigger with
   | some l => decide (0 < l.length)
   | none => false)

/-- Source `collectSelectableTriggersInContext`: button-field ids and
`fieldId::optionId` composites of the visible fields, optionally only the
effectful ones, in sorted order. -/
def collectSelectableTriggersInContext (v : Ctx) (tagId : String)
    (selectedKeys : List String) (onlyEffectful : Bool) : List String :=
  let visible := visibleFieldsUnder v.props tagId selectedKeys
  let triggers := visible.foldl (fun acc f =>
    let acc1 := if f.button = true &&
        (!onlyEffectful || isEffectfulTrigger v.props f.id)
      then acc ++ [f.id] else acc
    f.options.foldl (fun a o =>
      let t := f.id ++ "::" ++ o.id
      if !onlyEffectful || isEffectfulTrigger v.props t then a ++ [t]
      else a) acc1) []
  sortStrings triggers

def mkDupLabelError (tagId fieldId : String) (otherId : String)
    (label : String) : VError :=
  { code := "duplicate_visible_label", severity := "error"
    message := "Duplicate visible label \"" ++ label ++ "\" under tag \"" ++
      tagId ++ "\"."
    nodeId := some fieldId
    details := withAffected
      { tagId := some tagId, other := some otherId, label := some label }
      (some (if otherId = "" then [tagId, fieldId]
        else [tagId, fieldId, otherId])) }

/-- Duplicate-label scan of one visible group: a first-wins `seen` map
from label to field id, errors appended on repeats. -/
def dupLabelStep (tagId : String)
    (acc : List (String × String) × List VError) (f : Field) :
    List (String × String) × List VError :=
  let label := jsTrim f.label
  if label = "" then acc
  else
    match alookup acc.1 label with
    | some otherId => (acc.1, acc.2 ++ [mkDupLabelError tagId f.id otherId
        label])
    | none => (acc.1 ++ [(label, f.id)], acc.2)

def quantityOf (f : Field) : Bool :=
  match f.meta with
  | some m => m.quantity
  | none => false

def mkQuantityError (tagId : String) (markers : List String) : VError :=
  { code := "quantity_multiple_markers", severity := "error"
    message := "Multiple quantity markers found under tag \"" ++ tagId ++
      "\". Only one is allowed per visible group."
    nodeId := some tagId
    details := withAffected { tagId := some tagId, markers := markers }
      (some (tagId :: markers)) }

def mkUtilityError (tagId : String) (utilityOptionIds : List String) :
    VError :=
  { code := "utility_without_base", severity := "error"
    message := "Utility-priced options exist under tag \"" ++ tagId ++
      "\" but no base-priced options were found in the same visible group."
    nodeId := some tagId
    details := withAffected
      { tagId := some tagId, utilityOptionIds := utilityOptionIds }
      (some (tagId :: utilityOptionIds)) }

/-- Pricing-role scan of one visible group: base seen, utility seen, and
the utility option ids, over options with a finite `service_id`. -/
def utilityScan (visible : List Field) : Bool × Bool × List String :=
  visible.foldl (fun acc f =>
    f.options.foldl (fun a o =>
      if ¬ isFiniteNumber o.service_id then a
      else
        match o.pricing_role.orElse (fun _ => f.pricing_role) with
        | some .utility => (a.1, true, a.2.2 ++ [o.id])
        | some .base => (true, a.2.1, a.2.2)
        | none => (true, a.2.1, a.2.2)) acc) (false, false, [])

/-- Source `runVisibilityRulesOnce`: the three selection-aware rules, in
order, each scanning every tag's visible group. -/
def runVisibilityRulesOnce (v : Ctx) : Ctx :=
  let e1 := v.props.filters.foldl (fun errs t =>
    let visible := visibleFieldsUnder v.props t.id v.selectedKeys
    (visible.foldl (dupLabelStep t.id) ([], errs)).2) v.errors
  let e2 := v.props.filters.foldl (fun errs t =>
    let visible := visibleFieldsUnder v.props t.id v.selectedKeys
    let markers := (visible.filter quantityOf).map Field.id
    if 1 < markers.length then errs ++ [mkQuantityError t.id markers]
    else errs) e1
  let e3 := v.props.filters.foldl (fun errs t =>
    let visible := visibleFieldsUnder v.props t.id v.selectedKeys
    let scan := utilityScan visible
    if scan.2.1 && !scan.1 then errs ++ [mkUtilityError t.id scan.2.2]
    else errs) e2
  { v with errors := e3 }

/-- Dedup key of a simulated error (`keyOfErr`); the errors this step
emits never carry a nested `affected.tagId`, so that fallback is the
direct `tagId`. -/
def keyOfErr (e : VError) : String :=
  e.code ++ "::" ++ e.nodeId.getD "" ++ "::" ++ e.details.tagId.getD "" ++
    "::" ++ e.details.other.getD "" ++ "::" ++ e.message

/-- Source `dedupeErrorsInPlace`: keep the first error per key from
`startIndex` on, leaving the prefix untouched. -/
def dedupeErrorsInPlace (v : Ctx) (startIndex : Nat) : Ctx :=
  let pre := v.errors.take startIndex
  let post := v.errors.drop startIndex
  let kept := (post.foldl (fun acc e =>
    let k := keyOfErr e
    if k ∈ acc.1 then acc else (acc.1 ++ [k], acc.2 ++ [e])) ([], [])).2
  { v with errors := pre ++ kept }

/-- Simulation options (`SimulateVisibilityOptions`). -/
structure SimOpts where
  simulate : Option Bool := none
  maxStates : Option Nat := none
  maxDepth : Option Nat := none
  simulateAllRoots : Option Bool := none
  onlyEffectfulTriggers : Option Bool := none
deriving DecidableEq, Repr

structure SimState where
  rootTagId : String
  selected : List String
  depth : Nat
deriving DecidableEq, Repr

/-- Pop until a state with an unvisited selection signature: the run of
`continue` iterations of the source loop, which touch neither the
visited set nor the validated count. -/
def popFresh (visited : List String) :
    List SimState → Option (SimState × List SimState)
  | [] => none
  | st :: rest =>
    if stableKeyOfSelection st.selected ∈ visited then popFresh visited rest
    else some (st, rest)

/-- Source simulation loop.  The `validatedStates` counter is carried as
the remaining fuel `maxStates - validatedStates`, so the cap break is the
fuel-0 case; alongside the context the list of validated selections is
accumulated (the states the source counts in `validatedStates`). -/
def simLoop (onlyEffectful : Bool) (maxDepth : Nat) :
    Nat → List SimState → List String → Ctx → List (List String) →
      Ctx × List (List String)
  | 0, _, _, v, trace => (v, trace)
  | fuel + 1, stack, visited, v, trace =>
    match popFresh visited stack with
    | none => (v, trace)
    | some (state, rest) =>
      let visited2 := visited ++ [stableKeyOfSelection state.selected]
      let v2 := runVisibilityRulesOnce { v with
        selectedKeys := state.selected }
      let trace2 := trace ++ [state.selected]
      if maxDepth ≤ state.depth then
        simLoop onlyEffectful maxDepth fuel rest visited2 v2 trace2
      else
        let triggers := collectSelectableTriggersInContext v2 state.rootTagId
          state.selected onlyEffectful
        let nexts := (triggers.filter (fun t => ¬ t ∈ state.selected)).map
          (fun t => SimState.mk state.rootTagId (state.selected ++ [t])
            (state.depth + 1))
        simLoop onlyEffectful maxDepth fuel (nexts ++ rest) visited2 v2 trace2

/-- Source `validateVisibility`, with the validated-selection trace kept
alongside the resulting context. -/
def validateVisibilityTrace (v : Ctx) (options : SimOpts) :
    Ctx × List (List String) :=
  if ¬ options.simulate = some true then (runVisibilityRulesOnce v, [])
  else
    let maxStates := max 1 (options.maxStates.getD 500)
    let maxDepth := max 0 (options.maxDepth.getD 6)
    let onlyEffectful := ¬ options.onlyEffectfulTriggers = some false
    let roots := resolveRootTags v.props.filters
    let rootTags := if options.simulateAllRoots = some true then roots
      else roots.take 1
    let originalSelected := v.selectedKeys
    let errorsStart := v.errors.length
    let seeds := (rootTags.map
      (fun rt => SimState.mk rt.id originalSelected 0)).reverse
    let res := simLoop onlyEffectful maxDepth maxStates seeds [] v []
    (dedupeErrorsInPlace { res.1 with selectedKeys := originalSelected }
      errorsStart, res.2)

def validateVisibility (v : Ctx) (options : SimOpts) : Ctx :=
  (validateVisibilityTrace v options).1

/-- Stack-state invariant: the selection extends the seed by exactly
`depth` added triggers, and the depth stays within the cap. -/
def StackOK (seed : List String) (maxDepth : Nat) (st : SimState) : Prop :=
  ∃ added, st.selected = seed ++ added ∧ added.length = st.depth ∧
    st.depth ≤ maxDepth

theorem popFresh_spec {visited : List String} :
    ∀ {stack : List SimState} {st : SimState} {rest : List SimState},
      popFresh visited stack = some (st, rest) →
      st ∈ stack ∧ (∀ x ∈ rest, x ∈ stack) ∧
        stableKeyOfSelection st.selected ∉ visited := by
  intro stack
  induction stack with
  | nil => intro st rest h; cases h
  | cons a stack ih =>
    intro st rest h
    unfold popFresh at h
    by_cases hk : stableKeyOfSelection a.selected ∈ visited
    · rw [if_pos hk] at h
      rcases ih h with ⟨h1, h2, h3⟩
      exact ⟨List.mem_cons_of_mem a h1,
        fun x hx => List.mem_cons_of_mem a (h2 x hx), h3⟩
    · rw [if_neg hk] at h
      rcases Prod.ext_iff.1 (Option.some_inj.1 h) with ⟨h1, h2⟩
      subst h1
      subst h2
      exact ⟨List.mem_cons_self a stack,
        fun x hx => List.mem_cons_of_mem a hx, hk⟩

theorem simLoop_bounds (onlyEffectful : Bool) (maxDepth : Nat)
    (seed : List String) :
    ∀ (fuel : Nat) (stack : List SimState) (visited : List String) (v : Ctx)
      (trace : List (List String)),
      (∀ st ∈ stack, StackOK seed maxDepth st) →
      (trace.map stableKeyOfSelection).Nodup →
      (∀ k ∈ trace.map stableKeyOfSelection, k ∈ visited) →
      (simLoop onlyEffectful maxDepth fuel stack visited v trace).2.length ≤
        trace.length + fuel ∧
      ((simLoop onlyEffectful maxDepth fuel stack visited v
        trace).2.map stableKeyOfSelection).Nodup ∧
      ∀ sel ∈ (simLoop onlyEffectful maxDepth fuel stack visited v trace).2,
        sel ∈ trace ∨
          ∃ added, sel = seed ++ added ∧ added.length ≤ maxDepth := by
  intro fuel
  induction fuel with
  | zero =>
    intro stack visited v trace _ hnd _
    exact ⟨by simp [simLoop], by simpa [simLoop] using hnd,
      fun sel hs => Or.inl (by simpa [simLoop] using hs)⟩
  | succ fuel ih =>
    intro stack visited v trace hstack hnd hsub
    rcases hpf : popFresh visited stack with _ | ⟨state, rest⟩
    · refine ⟨by simp [simLoop, hpf], by simpa [simLoop, hpf] using hnd,
        fun sel hs => Or.inl (by simpa [simLoop, hpf] using hs)⟩
    · rcases popFresh_spec hpf with ⟨hmem, hrest, hfreshk⟩
      rcases hstack state hmem with ⟨added0, hsel, hlen, hdep⟩
      have hknew : stableKeyOfSelection state.selected ∉
          trace.map stableKeyOfSelection := fun hk => hfreshk (hsub _ hk)
      have hnd2 : ((trace ++
          [state.selected]).map stableKeyOfSelection).Nodup := by
        rw [List.map_append, List.nodup_append]
        refine ⟨hnd, by simp, ?_⟩
        intro a ha hb
        simp only [List.map_cons, List.map_nil, List.mem_singleton] at hb
        subst hb
        exact hknew ha
      have hsub2 : ∀ k ∈ (trace ++
          [state.selected]).map stableKeyOfSelection,
          k ∈ visited ++ [stableKeyOfSelection state.selected] := by
        intro k hk
        rw [List.map_append] at hk
        rcases List.mem_append.1 hk with h | h
        · exact List.mem_append_left _ (hsub k h)
        · exact List.mem_append_right _ h
      have htr : ∀ (out : List (List String)),
          (∀ sel ∈ out, sel ∈ trace ++ [state.selected] ∨
            ∃ added, sel = seed ++ added ∧ added.length ≤ maxDepth) →
          ∀ sel ∈ out, sel ∈ trace ∨
            ∃ added, sel = seed ++ added ∧ added.length ≤ maxDepth := by
        intro out hout sel hs
        rcases hout sel hs with h | h
        · rcases List.mem_append.1 h with h2 | h2
          · exact Or.inl h2
          · rw [List.mem_singleton.1 h2]
            exact Or.inr ⟨added0, hsel, by omega⟩
        · exact Or.inr h
      by_cases hbr : maxDepth ≤ state.depth
      · have hstack2 : ∀ st ∈ rest, StackOK seed maxDepth st :=
          fun st hst => hstack st (hrest st hst)
        have hih := ih rest (visited ++ [stableKeyOfSelection state.selected])
          (runVisibilityRulesOnce { v with selectedKeys := state.selected })
          (trace ++ [state.selected]) hstack2 hnd2 hsub2
        refine ⟨?_, ?_, ?_⟩
        · have := hih.1
          simp only [simLoop, hpf, if_pos hbr]
          simp only [List.length_append, List.length_singleton] at this
          omega
        · have := hih.2.1
          simp only [simLoop, hpf, if_pos hbr]
          exact this
        · have := hih.2.2
          simp only [simLoop, hpf, if_pos hbr]
          exact htr _ this
      · have hstack2 : ∀ st ∈
            ((collectSelectableTriggersInContext
                (runVisibilityRulesOnce { v with
                  selectedKeys := state.selected })
                state.rootTagId state.selected onlyEffectful).filter
              (fun t => ¬ t ∈ state.selected)).map
              (fun t => SimState.mk state.rootTagId (state.selected ++ [t])
                (state.depth + 1)) ++ rest,
            StackOK seed maxDepth st := by
          intro st hst
          rcases List.mem_append.1 hst with h | h
          · rcases List.mem_map.1 h with ⟨t, _, hmk⟩
            refine ⟨added0 ++ [t], ?_, ?_, ?_⟩
            · rw [← hmk]
              simp [hsel, List.append_assoc]
            · rw [← hmk]
              simp [hlen]
            · rw [← hmk]
              simp only []
              omega
          · exact hstack st (hrest st h)
        have hih := ih _ (visited ++ [stableKeyOfSelection state.selected])
          (runVisibilityRulesOnce { v with selectedKeys := state.selected })
          (trace ++ [state.selected]) hstack2 hnd2 hsub2
        refine ⟨?_, ?_, ?_⟩
        · have := hih.1
          simp only [simLoop, hpf, if_neg hbr]
          simp only [List.length_append, List.length_singleton] at this
          omega
        · have := hih.2.1
          simp only [simLoop, hpf, if_neg hbr]
          exact this
        · have := hih.2.2
          simp only [simLoop, hpf, if_neg hbr]
          exact htr _ this

/-- Concrete context for the C4 counterexample and the C4/C8 witnesses:
one root tag, no fields, empty seed selection. -/
def ctxC4 : Ctx :=
  { props := { filters := [{ id := "root", label := "R" }] }
    selectedKeys := []
    errors := [] }

/-- C4 as frozen is false at the setting `maxStates = 0`: the source
clamps the cap with `Math.max(1, maxStates)` and still validates one
state, exceeding the claimed bound of at most `maxStates` states. -/
theorem claim_C4_counterexample :
    (validateVisibilityTrace ctxC4
      { simulate := some true, maxStates := some 0 }).2.length = 1 ∧
    ¬ ((validateVisibilityTrace ctxC4
      { simulate := some true, maxStates := some 0 }).2.length ≤ 0) :=
  ⟨by decide, by decide⟩

/-- C4 (amended): for every context and options, the simulation (a total
function here, so it terminates) validates at most `max 1 maxStates`
selection states, all distinct under the sorted-join signature, and every
validated selection extends the caller's seed by at most
`max 0 maxDepth` added triggers. -/
theorem claim_C4_simulation_bounds (v : Ctx) (options : SimOpts) :
    (validateVisibilityTrace v options).2.length ≤
      max 1 (options.maxStates.getD 500) ∧
    ((validateVisibilityTrace v options).2.map stableKeyOfSelection).Nodup ∧
    ∀ sel ∈ (validateVisibilityTrace v options).2,
      ∃ added, sel = v.selectedKeys ++ added ∧
        added.length ≤ max 0 (options.maxDepth.getD 6) := by
  by_cases hsim : options.simulate = some true
  · have h2 : (validateVisibilityTrace v options).2 =
        (simLoop (¬ options.onlyEffectfulTriggers = some false)
          (max 0 (options.maxDepth.getD 6))
          (max 1 (options.maxStates.getD 500))
          (((if options.simulateAllRoots = some true then
              resolveRootTags v.props.filters
            else (resolveRootTags v.props.filters).take 1).map
            (fun rt => SimState.mk rt.id v.selectedKeys 0)).reverse)
          [] v []).2 := by
      unfold validateVisibilityTrace
      rw [if_neg (fun hc => hc hsim)]
    have hstack : ∀ st ∈ (((if options.simulateAllRoots = some true then
          resolveRootTags v.props.filters
        else (resolveRootTags v.props.filters).take 1).map
        (fun rt => SimState.mk rt.id v.selectedKeys 0)).reverse),
        StackOK v.selectedKeys (max 0 (options.maxDepth.getD 6)) st := by
      intro st hst
      rw [List.mem_reverse] at hst
      rcases List.mem_map.1 hst with ⟨rt, _, hmk⟩
      rw [← hmk]
      exact ⟨[], by simp, rfl, Nat.zero_le _⟩
    have hb := simLoop_bounds (¬ options.onlyEffectfulTriggers = some false)
      (max 0 (options.maxDepth.getD 6)) v.selectedKeys
      (max 1 (options.maxStates.getD 500)) _ [] v [] hstack List.nodup_nil
      (fun k hk => absurd hk (List.not_mem_nil k))
    rw [h2]
    refine ⟨by simpa using hb.1, hb.2.1, ?_⟩
    intro sel hs
    rcases hb.2.2 sel hs with h | h
    · exact absurd h (List.not_mem_nil sel)
    · exact h
  · have h2 : (validateVisibilityTrace v options).2 = [] := by
      unfold validateVisibilityTrace
      rw [if_pos hsim]
    rw [h2]
    refine ⟨by simp, by simp, ?_⟩
    intro sel hs
    exact absurd hs (List.not_mem_nil sel)

/-- C4 witness: the amended theorem applied to the concrete one-root
context; its single validated selection is the empty seed itself. -/
theorem claim_C4_witness :
    (validateVisibilityTrace ctxC4 { simulate := some true }).2 = [[]] ∧
    ∃ added, ([] : List String) = ctxC4.selectedKeys ++ added ∧
      added.length ≤
        max 0 (({ simulate := some true } : SimOpts).maxDepth.getD 6) := by
  refine ⟨by decide, ?_⟩
  exact (claim_C4_simulation_bounds ctxC4 { simulate := some true }).2.2 []
    (by decide)

/-- C8: with simulation enabled, `validateVisibility` restores the
caller's selection: the returned context carries exactly the
selected-keys it was called with, whether the walk ran to exhaustion or
hit the state cap. -/
theorem claim_C8_selection_restored (v : Ctx) (options : SimOpts)
    (hsim : options.simulate = some true) :
    (validateVisibility v options).selectedKeys = v.selectedKeys := by
  unfold validateVisibility validateVisibilityTrace
  rw [if_neg (fun hc => hc hsim)]
  rfl

/-- C8 witness: the restore property at the concrete one-root context. -/
theorem claim_C8_witness :
    ({ simulate := some true } : SimOpts).simulate = some true ∧
    (validateVisibility ctxC4 { simulate := some true }).selectedKeys =
      ctxC4.selectedKeys :=
  ⟨rfl, claim_C8_selection_restored ctxC4 { simulate := some true } rfl⟩

/-- C10: for every accepted input and options, the canonical document
emitted by `normalise` never carries `includes_for_buttons`,
`excludes_for_buttons` or `order_for_tags` (they are dropped with all
other unknown top-level keys, even when present on the raw input), and
always carries a `schema_version` string. -/
theorem claim_C10_canonical_keys (x : RawDoc) (opts : NormaliseOptions) :
    (normalise x opts).includes_for_buttons = none ∧
    (normalise x opts).excludes_for_buttons = none ∧
    (normalise x opts).order_for_tags = none ∧
    (normalise x opts).schema_version.isSome = true := by
  unfold normalise
  refine ⟨?_, ?_, ?_, ?_⟩
  · rw [(propagate_preserves_keys _).2.1]
  · rw [(propagate_preserves_keys _).2.2.1]
  · rw [(propagate_preserves_keys _).1]
  · rw [(propagate_preserves_keys _).2.2.2]
    rfl

end Dse
